import Mathlib

/-!
Verification of the gluon `DataLoader` module
(`src/python/mxnet/gluon/data/dataloader.py`).

The development shallowly embeds the module's functions:

* the dispatcher's reorder buffer (`data_buffer` / `curr_idx`, lines 198-205)
  as an association list with Python-`dict` insert/pop semantics;
* the worker process body `worker_loop` (lines 107-113);
* the parallel branch of `DataLoader.__iter__` (lines 182-211) as a trace of
  queue/process operations;
* the collate functions `default_batchify_fn` (lines 80-89) and
  `default_mp_batchify_fn` (lines 92-104) over a tagged model of samples
  (tensor / tuple / scalar), with tensors carrying shape, element values and
  an allocation context;
* the constructor validation of `DataLoader.__init__` (lines 142-174);
* module-level name binding relevant to `ConnectionWrapper.send`
  (lines 53-57).

External collaborators (the batch sampler, the dataset) are modelled at the
interface the spec gives them: a batch sampler is a finite ordered list of
index lists, a dataset is an indexing function.
-/

variable {α : Type} {β : Type} {γ : Type}

/-! ### The reorder buffer (`DataLoader.__iter__`, lines 198-205)

`data_buffer` is a Python `dict` keyed by ticket.  We model it as an
association list; `insertTicket` models `data_buffer[idx] = batch`
(replacing any existing binding), `lookupTicket` models both
`data_buffer[k]` and the `k in data_buffer` test, and `eraseTicket`
models `data_buffer.pop(k)`. -/

/-- The dispatcher's pending-result buffer: ticket/batch pairs. -/
def Buffer (β : Type) : Type := List (Nat × β)

/-- Membership/lookup in the buffer (`curr_idx in data_buffer`,
`data_buffer[k]`). -/
def lookupTicket (k : Nat) : Buffer β → Option β
  | [] => none
  | (k', v) :: rest => if k' = k then some v else lookupTicket k rest

/-- Removal from the buffer (`data_buffer.pop(k)` forgets the binding). -/
def eraseTicket (k : Nat) : Buffer β → Buffer β
  | [] => []
  | (k', v) :: rest => if k' = k then rest else (k', v) :: eraseTicket k rest

/-- `data_buffer[idx] = batch`: bind `k` to `v`, dropping any previous
binding of `k`. -/
def insertTicket (k : Nat) (v : β) (buf : Buffer β) : Buffer β :=
  (k, v) :: eraseTicket k buf

/-- A successful lookup means the erase removes an entry, so the buffer
shrinks.  (Stated as a `def` because the recursive `drainReady` below needs
it for its termination argument.) -/
def eraseTicket_length_lt (k : Nat) :
    ∀ (buf : Buffer β) (v : β), lookupTicket k buf = some v →
      (eraseTicket k buf).length < buf.length := by
  intro buf
  induction buf with
  | nil => intro v h; simp [lookupTicket] at h
  | cons p rest ih =>
    intro v h
    obtain ⟨k', v'⟩ := p
    by_cases hk : k' = k
    · simp [eraseTicket, hk]
    · simp only [lookupTicket, if_neg hk] at h
      simpa [eraseTicket, hk] using Nat.succ_lt_succ (ih v h)

/-- The inner `while curr_idx in data_buffer:` loop of `__iter__`
(lines 203-205): repeatedly pop and emit `data_buffer[curr_idx]`,
incrementing `curr_idx`.  Returns the emitted batches, the remaining
buffer and the new `curr_idx`. -/
def drainReady (buf : Buffer β) (curr : Nat) : List β × Buffer β × Nat :=
  match h : lookupTicket curr buf with
  | none => ([], buf, curr)
  | some b =>
    let r := drainReady (eraseTicket curr buf) (curr + 1)
    (b :: r.1, r.2.1, r.2.2)
termination_by buf.length
decreasing_by exact eraseTicket_length_lt curr buf b h

/-- The result-collection loop of `__iter__` (lines 200-205): for each
arriving `(idx, batch)` pair, store it in the buffer and drain every
ready entry, concatenating everything that is yielded. -/
def collectLoop : List (Nat × β) → Buffer β → Nat → List β
  | [], _, _ => []
  | a :: rest, buf, curr =>
    let r := drainReady (insertTicket a.1 a.2 buf) curr
    r.1 ++ collectLoop rest r.2.1 r.2.2

/-! ### Synchronous mode and the parallel dispatch pipeline
(`DataLoader.__iter__`, lines 176-211, and `worker_loop`, lines 107-113) -/

/-- Python's `enumerate`, starting at `k`. -/
def pyEnumerate (k : Nat) : List α → List (Nat × α)
  | [] => []
  | a :: as => (k, a) :: pyEnumerate (k + 1) as

/-- The synchronous branch of `__iter__` (lines 177-180): for each index
batch of the sampler, fetch every sample and collate, yielding in sampler
order.  The external batch sampler is its finite ordered list of index
batches; the dataset is its indexing function. -/
def syncPass (fetch : Nat → α) (bfn : List α → β) (bs : List (List Nat)) : List β :=
  bs.map (fun batch => bfn (batch.map fetch))

/-- `DataLoader.__len__` (lines 213-214): the batch sampler's batch count. -/
def dataLoader_len (bs : List (List Nat)) : Nat := bs.length

/-- One job's processing inside `worker_loop` (line 112-113): fetch
`dataset[i]` for each index in order, collate, and pair the batch with the
job's ticket. -/
def processJob (fetch : Nat → α) (bfn : List α → β) (j : Nat × List Nat) : Nat × β :=
  (j.1, bfn (j.2.map fetch))

/-- A message on the job channel (`key_queue`): either a ticketed index
batch `(idx, batch)` or the sentinel `(None, None)` (lines 195, 208).
`worker_loop` distinguishes them by `idx is None` (line 110). -/
inductive KeyMsg where
  | job (ticket : Nat) (indices : List Nat)
  | sentinel
deriving DecidableEq, Repr

/-- `worker_loop` (lines 107-113) over the finite stream of messages the
worker will receive from the job channel.  `some out` means the loop hit a
sentinel and returned (the process terminates), having published `out` on
the result channel in order; `none` means the stream was exhausted with no
sentinel, i.e. the worker is still blocked in `key_queue.get()`. -/
def worker_loop (fetch : Nat → α) (bfn : List α → β) : List KeyMsg → Option (List (Nat × β))
  | [] => none
  | KeyMsg.sentinel :: _ => some []
  | KeyMsg.job t ids :: rest =>
    (worker_loop fetch bfn rest).map (fun out => processJob fetch bfn (t, ids) :: out)

/-- `maxsize` of the job channel (line 182). -/
def key_queue_maxsize : Nat := 65535

/-- `maxsize` of the result channel (line 183). -/
def data_queue_maxsize : Nat := 65535

/-- The batches the parallel branch of `__iter__` yields (lines 198-205):
the collection loop runs `len(self._batch_sampler)` times, so it consumes
exactly that many results from the result channel, in arrival order. -/
def parallelPassYields (bs : List (List Nat)) (arrivals : List (Nat × β)) : List β :=
  collectLoop (arrivals.take bs.length) [] 0

/-- One observable operation of the dispatcher during a parallel pass. -/
inductive PassOp (β : Type) where
  | spawn
  | putKey (m : KeyMsg)
  | getResult (r : Nat × β)
  | yieldB (b : β)
  | joinWorker
deriving DecidableEq

/-- The operation trace of the collection loop (lines 200-205): each
iteration performs one `data_queue.get()` followed by the yields the
reorder buffer releases. -/
def collectOps : List (Nat × β) → Buffer β → Nat → List (PassOp β)
  | [], _, _ => []
  | a :: rest, buf, curr =>
    let r := drainReady (insertTicket a.1 a.2 buf) curr
    PassOp.getResult a :: (r.1.map PassOp.yieldB ++ collectOps rest r.2.1 r.2.2)

/-- The full operation trace of the parallel branch of `__iter__`
(lines 182-211): spawn `num_workers` workers (lines 185-192), enqueue
every index batch of the sampler as a ticketed job in order (lines
194-195), run the collection loop (lines 198-205), then push one sentinel
per worker (lines 207-208) and join every worker (lines 210-211).
`arrivals` is the sequence of results on the result channel in arrival
order. -/
def iterParallel (numWorkers : Nat) (bs : List (List Nat))
    (arrivals : List (Nat × β)) : List (PassOp β) :=
  List.replicate numWorkers PassOp.spawn
    ++ (pyEnumerate 0 bs).map (fun p => PassOp.putKey (KeyMsg.job p.1 p.2))
    ++ collectOps (arrivals.take bs.length) [] 0
    ++ List.replicate numWorkers (PassOp.putKey KeyMsg.sentinel)
    ++ List.replicate numWorkers PassOp.joinWorker

/-- Extract a job put on the job channel from a trace operation. -/
def jobOf : PassOp β → Option (Nat × List Nat)
  | PassOp.putKey (KeyMsg.job t ids) => some (t, ids)
  | _ => none

/-- Is the operation a `data_queue.get()`? -/
def isGetResult : PassOp β → Bool
  | PassOp.getResult _ => true
  | _ => false

/-- Is the operation a sentinel put on the job channel? -/
def isPutSentinel : PassOp β → Bool
  | PassOp.putKey KeyMsg.sentinel => true
  | _ => false

/-- The protocol facts one parallel pass satisfies (claim C4): jobs are
enqueued as the enumeration of the sampler with tickets `0, 1, 2, …` in
order; both channels are bounded at 65535; exactly `len(batch_sampler)`
results are drained; the sentinels — one per worker — and the joins all
come after every other operation of the pass; and a worker whose message
stream contains a sentinel terminates. -/
def C4Statement (fetch : Nat → α) (bfn : List α → β) (numWorkers : Nat)
    (bs : List (List Nat)) (arrivals : List (Nat × β)) : Prop :=
  (iterParallel numWorkers bs arrivals).filterMap jobOf = pyEnumerate 0 bs ∧
  ((iterParallel numWorkers bs arrivals).filterMap jobOf).map Prod.fst =
    List.range bs.length ∧
  key_queue_maxsize = 65535 ∧
  data_queue_maxsize = 65535 ∧
  (iterParallel numWorkers bs arrivals).countP (fun op => isGetResult op) =
    dataLoader_len bs ∧
  (∃ pre : List (PassOp β),
    iterParallel numWorkers bs arrivals =
      pre ++ (List.replicate numWorkers (PassOp.putKey KeyMsg.sentinel) ++
        List.replicate numWorkers PassOp.joinWorker) ∧
    ∀ op ∈ pre, isPutSentinel op = false) ∧
  (∀ stream : List KeyMsg, KeyMsg.sentinel ∈ stream →
    (worker_loop fetch bfn stream).isSome = true)

/-! ### Samples, batches and tensors

Samples follow the tagged shape the spec's design notes give them:
a tensor leaf, a tuple of samples, or a scalar.  An `NDArray` carries its
shape, its element values in row-major order, and the context it is
allocated on (`cpu` for ordinary host memory, `cpuShared` for the
`cpu_shared` shared-memory context of lines 96 and 104). -/

/-- Allocation context of a tensor. -/
inductive Ctx where
  | cpu
  | cpuShared
deriving DecidableEq, Repr

/-- Model of `nd.NDArray`: shape, row-major element values, allocation
context. -/
structure NDArray where
  shape : List Nat
  data : List Int
  ctx : Ctx
deriving DecidableEq, Repr

/-- One dataset element: a tensor, a tuple of samples, or a scalar. -/
inductive Sample where
  | arr (a : NDArray)
  | tup (fields : List Sample)
  | scalar (v : Int)
deriving Repr

/-- A collated batch: either one stacked tensor or a Python list of
recursively collated fields (line 86/100 builds a list). -/
inductive Batch where
  | arr (a : NDArray)
  | list (items : List Batch)
deriving Repr

mutual
/-- Nesting depth of a sample (0 at leaves). -/
def depth : Sample → Nat
  | Sample.arr _ => 0
  | Sample.scalar _ => 0
  | Sample.tup fs => 1 + depthL fs
/-- Nesting depth of a list of samples: the maximum member depth. -/
def depthL : List Sample → Nat
  | [] => 0
  | s :: rest => max (depth s) (depthL rest)
end

/-- Nesting depth of a list of sample lists. -/
def depthLL : List (List Sample) → Nat
  | [] => 0
  | fl :: fls => max (depthL fl) (depthLL fls)

/-- A Python list comprehension whose body may raise: `some` of the list
of results, or `none` as soon as one element fails. -/
def mapOpt (g : α → Option γ) : List α → Option (List γ)
  | [] => some []
  | a :: as =>
    match g a, mapOpt g as with
    | some b, some bs => some (b :: bs)
    | _, _ => none

/-- The fields of a tuple sample; iterating anything else in `zip(*data)`
is outside the model. -/
def tupleFields : Sample → Option (List Sample)
  | Sample.tup fs => some fs
  | _ => none

/-- Number of tuples `zip` produces: the minimum length of its inputs
(`zip()` with no inputs produces nothing). -/
def minArity : List (List α) → Nat
  | [] => 0
  | [r] => r.length
  | r :: rows => min r.length (minArity rows)

/-- Python's `zip(*rows)` for list inputs: the `j`-th output collects the
`j`-th element of every row, truncated at the shortest row.  The default
`d` is never read, since `j < minArity rows` bounds every access. -/
def pyZip (d : α) (rows : List (List α)) : List (List α) :=
  (List.range (minArity rows)).map (fun j => rows.map (fun r => r.getD j d))

/-- `zip(*data)` as used on line 85/99: every element of `data` must be a
tuple, whose field lists are then transposed. -/
def transposeTuples (data : List Sample) : Option (List (List Sample)) :=
  (mapOpt tupleFields data).map (pyZip (Sample.tup []))

/-- `nd.stack(*data)` (line 83): defined for a non-empty list of arrays of
equal shape; the result gains a leading axis of length `len(data)` and
concatenates the inputs in row-major order, allocated on the default
(cpu) context. -/
def ndStack (arrs : List NDArray) : Option NDArray :=
  match arrs with
  | [] => none
  | a :: rest =>
    if ∀ x ∈ rest, x.shape = a.shape then
      some ⟨(a :: rest).length :: a.shape, ((a :: rest).map NDArray.data).flatten, Ctx.cpu⟩
    else none

/-- `nd.empty(shape, ctx=...)` (line 95): an uninitialised array of the
given shape on the given context (element values modelled as zeros; they
are fully overwritten before use). -/
def ndEmpty (shape : List Nat) (c : Ctx) : NDArray :=
  ⟨shape, List.replicate shape.prod 0, c⟩

/-- `nd.stack(*data, out=out)` (line 97): as `ndStack`, but the result
lives in `out`, whose shape must be the stacked shape; the result keeps
`out`'s allocation context. -/
def ndStackOut (arrs : List NDArray) (out : NDArray) : Option NDArray :=
  match arrs with
  | [] => none
  | a :: rest =>
    if (∀ x ∈ rest, x.shape = a.shape) ∧ out.shape = (a :: rest).length :: a.shape then
      some ⟨out.shape, ((a :: rest).map NDArray.data).flatten, out.ctx⟩
    else none

/-- View a sample as a tensor (the `isinstance(data[0], nd.NDArray)`
branch requires every element to be one for `nd.stack`). -/
def asNd : Sample → Option NDArray
  | Sample.arr a => some a
  | _ => none

/-- View a sample as a scalar (the `else` branch of line 87-89 requires
every element to be array-convertible; scalars are its model). -/
def asScalar : Sample → Option Int
  | Sample.scalar v => some v
  | _ => none

/-- A member produced by a successful `mapOpt` comes from a member of the
input.  (Needed below for the termination of `default_batchify_fn`.) -/
def mem_of_mapOpt (g : α → Option γ) :
    ∀ (l : List α) (out : List γ), mapOpt g l = some out →
      ∀ b ∈ out, ∃ a ∈ l, g a = some b := by
  intro l
  induction l with
  | nil =>
    intro out h b hb
    simp only [mapOpt, Option.some.injEq] at h
    subst h; simp at hb
  | cons a as ih =>
    intro out h b hb
    rcases hga : g a with _ | ga <;> rcases hmas : mapOpt g as with _ | mas <;>
      simp only [mapOpt, hga, hmas] at h
    · exact absurd h (by simp)
    · exact absurd h (by simp)
    · exact absurd h (by simp)
    · injection h with h'
      subst h'
      rcases List.mem_cons.mp hb with rfl | hbm
      · exact ⟨a, List.mem_cons_self a as, hga⟩
      · obtain ⟨a', ha', h'⟩ := ih mas hmas b hbm
        exact ⟨a', List.mem_cons_of_mem a ha', h'⟩

/-- `minArity` is a lower bound on every row's length. -/
def minArity_le (r : List α) :
    ∀ (rows : List (List α)), r ∈ rows → minArity rows ≤ r.length := by
  intro rows
  induction rows with
  | nil => intro h; simp at h
  | cons r' rows ih =>
    intro h
    rcases List.mem_cons.mp h with rfl | h2
    · cases rows with
      | nil => simp [minArity]
      | cons a b => exact min_le_left _ _
    · cases rows with
      | nil => simp at h2
      | cons a b => exact le_trans (min_le_right _ _) (ih h2)

/-- Every element of a `pyZip` output row is an element of an input row. -/
def pyZip_mem (d : α) (rows : List (List α)) (fl : List α) (h : fl ∈ pyZip d rows)
    (x : α) (hx : x ∈ fl) : ∃ r ∈ rows, x ∈ r := by
  simp only [pyZip, List.mem_map, List.mem_range] at h
  obtain ⟨j, hj, rfl⟩ := h
  simp only [List.mem_map] at hx
  obtain ⟨r, hr, rfl⟩ := hx
  refine ⟨r, hr, ?_⟩
  have hjr : j < r.length := lt_of_lt_of_le hj (minArity_le r rows hr)
  rw [List.getD_eq_getElem r d hjr]
  exact List.get_mem r _ _

/-- A member's depth bounds below the list depth. -/
def depth_le_depthL (x : Sample) :
    ∀ (l : List Sample), x ∈ l → depth x ≤ depthL l := by
  intro l
  induction l with
  | nil => intro h; simp at h
  | cons s rest ih =>
    intro h
    rcases List.mem_cons.mp h with rfl | h2
    · simp [depthL]
    · exact le_trans (ih h2) (by simp [depthL])

/-- A list whose members all have depth below a positive bound has list
depth below that bound. -/
def depthL_lt_of_forall (D : Nat) (hD : 0 < D) :
    ∀ (fl : List Sample), (∀ x ∈ fl, depth x < D) → depthL fl < D := by
  intro fl
  induction fl with
  | nil => intro _; simp only [depthL]; exact hD
  | cons x rest ih =>
    intro h
    simp only [depthL]
    exact max_lt (h x (List.mem_cons_self x rest))
      (ih (fun y hy => h y (List.mem_cons_of_mem x hy)))

/-- As `depthL_lt_of_forall`, one level up. -/
def depthLL_lt_of_forall (D : Nat) (hD : 0 < D) :
    ∀ (fls : List (List Sample)), (∀ fl ∈ fls, depthL fl < D) → depthLL fls < D := by
  intro fls
  induction fls with
  | nil => intro _; simp only [depthLL]; exact hD
  | cons fl rest ih =>
    intro h
    simp only [depthLL]
    exact max_lt (h fl (List.mem_cons_self fl rest))
      (ih (fun y hy => h y (List.mem_cons_of_mem fl hy)))

/-- Transposing a list of tuples strictly lowers the depth measure: the
termination argument for the recursion of `default_batchify_fn` through
`zip(*data)`. -/
def transpose_depthLL_lt (fs rest' : List Sample) (fls : List (List Sample))
    (h : transposeTuples (Sample.tup fs :: rest') = some fls) :
    depthLL fls < depthL (Sample.tup fs :: rest') := by
  have hD : 0 < depthL (Sample.tup fs :: rest') := by
    have h1 : 1 ≤ depth (Sample.tup fs) := by simp [depth]
    have h2 : depth (Sample.tup fs) ≤ depthL (Sample.tup fs :: rest') :=
      depth_le_depthL _ _ (List.mem_cons_self _ _)
    omega
  simp only [transposeTuples, Option.map_eq_some'] at h
  obtain ⟨rows, hrows, rfl⟩ := h
  apply depthLL_lt_of_forall _ hD
  intro fl hfl
  apply depthL_lt_of_forall _ hD
  intro x hx
  obtain ⟨r, hr, hxr⟩ := pyZip_mem _ rows fl hfl x hx
  obtain ⟨a, ha, hga⟩ := mem_of_mapOpt tupleFields _ rows hrows r hr
  cases a with
  | arr a0 => simp [tupleFields] at hga
  | scalar v0 => simp [tupleFields] at hga
  | tup fs' =>
    simp only [tupleFields, Option.some.injEq] at hga
    rw [hga] at ha
    have h1 : depth x ≤ depthL r := depth_le_depthL _ _ hxr
    have h2 : depth (Sample.tup r) ≤ depthL (Sample.tup fs :: rest') :=
      depth_le_depthL _ _ ha
    simp only [depth] at h2
    omega

/-- A lexicographic step where the first component may stay equal. -/
def lex_le_lt {a b c d : Nat} (h1 : a ≤ b) (h2 : c < d) :
    Prod.Lex (· < ·) (· < ·) (a, c) (b, d) := by
  rcases lt_or_eq_of_le h1 with h | rfl
  · exact Prod.Lex.left _ _ h
  · exact Prod.Lex.right _ h2

mutual
/-- `default_batchify_fn` (lines 80-89): dispatch on the first element.
Tensor: `nd.stack(*data)`.  Tuple: `zip(*data)` then recurse on each
field list, collecting a Python list.  Otherwise: `nd.array(np.asarray(data))`,
a one-dimensional cpu tensor of the scalar values.  `none` models a raised
exception, including the `data[0]` IndexError on an empty list. -/
def default_batchify_fn : List Sample → Option Batch
  | [] => none
  | Sample.arr a :: rest =>
    (mapOpt asNd (Sample.arr a :: rest)).bind
      (fun arrs => (ndStack arrs).map Batch.arr)
  | Sample.tup fs :: rest =>
    (match h : transposeTuples (Sample.tup fs :: rest) with
     | none => none
     | some fls => (collateEach fls).map Batch.list)
  | Sample.scalar v :: rest =>
    (mapOpt asScalar (Sample.scalar v :: rest)).map
      (fun vs => Batch.arr ⟨[vs.length], vs, Ctx.cpu⟩)
termination_by data => (depthL data, sizeOf data)
decreasing_by
  exact Prod.Lex.left _ _ (transpose_depthLL_lt _ _ _ h)

/-- The list comprehension of line 86: collate each field list in order. -/
def collateEach : List (List Sample) → Option (List Batch)
  | [] => some []
  | fl :: fls =>
    match default_batchify_fn fl, collateEach fls with
    | some b, some bs => some (b :: bs)
    | _, _ => none
termination_by fls => (depthLL fls, sizeOf fls)
decreasing_by
  · exact lex_le_lt (by simp [depthLL]) (by simp only [List.cons.sizeOf_spec]; omega)
  · exact lex_le_lt (by simp [depthLL]) (by simp only [List.cons.sizeOf_spec]; omega)
end

mutual
/-- `default_mp_batchify_fn` (lines 92-104): as `default_batchify_fn`, but
tensors are allocated on the `cpu_shared` context: the tensor branch
builds `out = nd.empty((len(data),) + data[0].shape, ctx=cpu_shared)` and
stacks into it (lines 95-97), and the scalar branch passes
`ctx=cpu_shared` to `nd.array` (lines 102-104). -/
def default_mp_batchify_fn : List Sample → Option Batch
  | [] => none
  | Sample.arr a :: rest =>
    (mapOpt asNd (Sample.arr a :: rest)).bind
      (fun arrs =>
        (ndStackOut arrs
            (ndEmpty ((Sample.arr a :: rest).length :: a.shape) Ctx.cpuShared)).map
          Batch.arr)
  | Sample.tup fs :: rest =>
    (match h : transposeTuples (Sample.tup fs :: rest) with
     | none => none
     | some fls => (collateEachMp fls).map Batch.list)
  | Sample.scalar v :: rest =>
    (mapOpt asScalar (Sample.scalar v :: rest)).map
      (fun vs => Batch.arr ⟨[vs.length], vs, Ctx.cpuShared⟩)
termination_by data => (depthL data, sizeOf data)
decreasing_by
  exact Prod.Lex.left _ _ (transpose_depthLL_lt _ _ _ h)

/-- The list comprehension of line 100. -/
def collateEachMp : List (List Sample) → Option (List Batch)
  | [] => some []
  | fl :: fls =>
    match default_mp_batchify_fn fl, collateEachMp fls with
    | some b, some bs => some (b :: bs)
    | _, _ => none
termination_by fls => (depthLL fls, sizeOf fls)
decreasing_by
  · exact lex_le_lt (by simp [depthLL]) (by simp only [List.cons.sizeOf_spec]; omega)
  · exact lex_le_lt (by simp [depthLL]) (by simp only [List.cons.sizeOf_spec]; omega)
end

/-! ### Shape structure of samples and batches -/

/-- The shape structure of a sample: tensor leaves keep their shape,
tuples keep field order and arity, scalars are bare leaves. -/
inductive SShape where
  | tensor (sh : List Nat)
  | tup (fields : List SShape)
  | scalar
deriving Repr

/-- The shape structure of a batch. -/
inductive BShape where
  | arr (sh : List Nat)
  | list (fields : List BShape)
deriving Repr

mutual
/-- The shape structure of a sample. -/
def sampleShape : Sample → SShape
  | Sample.arr a => SShape.tensor a.shape
  | Sample.tup fs => SShape.tup (sampleShapeL fs)
  | Sample.scalar _ => SShape.scalar
/-- Shape structures of a list of samples, in order. -/
def sampleShapeL : List Sample → List SShape
  | [] => []
  | s :: rest => sampleShape s :: sampleShapeL rest
end

mutual
/-- The shape structure of a batch. -/
def batchShape : Batch → BShape
  | Batch.arr a => BShape.arr a.shape
  | Batch.list bs => BShape.list (batchShapeL bs)
/-- Shape structures of a list of batches, in order. -/
def batchShapeL : List Batch → List BShape
  | [] => []
  | b :: rest => batchShape b :: batchShapeL rest
end

mutual
/-- The expected batch shape when `n` samples of a given shape structure
are collated: every tensor leaf of shape `sh` becomes a tensor of shape
`n :: sh`, every scalar leaf a tensor of shape `[n]`, and tuples become
lists field by field, preserving order and arity. -/
def stackedShape (n : Nat) : SShape → BShape
  | SShape.tensor sh => BShape.arr (n :: sh)
  | SShape.tup fs => BShape.list (stackedShapeL n fs)
  | SShape.scalar => BShape.arr [n]
/-- `stackedShape` on each field, in order. -/
def stackedShapeL (n : Nat) : List SShape → List BShape
  | [] => []
  | σ :: rest => stackedShape n σ :: stackedShapeL n rest
end

mutual
/-- Forget where every tensor of a batch is allocated (set all contexts
to `cpu`), leaving structure, shapes and element values intact. -/
def eraseCtx : Batch → Batch
  | Batch.arr a => Batch.arr ⟨a.shape, a.data, Ctx.cpu⟩
  | Batch.list bs => Batch.list (eraseCtxL bs)
/-- `eraseCtx` on each item. -/
def eraseCtxL : List Batch → List Batch
  | [] => []
  | b :: rest => eraseCtx b :: eraseCtxL rest
end

/-! ### Constructor validation (`DataLoader.__init__`, lines 142-174) -/

/-- The `last_batch` policy values the docstring recognises
(lines 130-136). -/
inductive LastBatch where
  | keep
  | discard
  | rollover
deriving DecidableEq, Repr

/-- The sampler the constructor ends up using: the caller's, or the one
built from `shuffle` (lines 151-155). -/
inductive SamplerV where
  | external (id : Nat)
  | random (n : Nat)
  | sequential (n : Nat)
deriving DecidableEq, Repr

/-- The batch sampler the constructor ends up using: the caller's, or a
`BatchSampler(sampler, batch_size, last_batch)` built on lines 159-160. -/
inductive BatchSamplerV where
  | external (id : Nat)
  | constructed (smp : SamplerV) (batch_size : Nat) (policy : LastBatch)
deriving DecidableEq, Repr

/-- Which collate function the loader will use (lines 168-174). -/
inductive BatchifyChoice where
  | defaultFn
  | defaultMpFn
  | custom (id : Nat)
deriving DecidableEq, Repr

/-- The keyword arguments of `DataLoader.__init__` (lines 142-144).
Caller-supplied sampler objects, batch-sampler objects and collate
functions are opaque and identified by a number. -/
structure Config where
  datasetLen : Nat
  batch_size : Option Nat
  shuffle : Bool
  sampler : Option Nat
  last_batch : Option LastBatch
  batch_sampler : Option Nat
  batchify_fn : Option Nat
  num_workers : Nat
deriving DecidableEq, Repr

/-- The state a successfully constructed `DataLoader` holds. -/
structure LoaderState where
  batch_sampler : BatchSamplerV
  num_workers : Nat
  batchify : BatchifyChoice
deriving DecidableEq, Repr

/-- The collate-function selection of lines 168-174. -/
def chooseBatchify (cfg : Config) : BatchifyChoice :=
  match cfg.batchify_fn with
  | some fid => BatchifyChoice.custom fid
  | none =>
    if cfg.num_workers > 0 then BatchifyChoice.defaultMpFn else BatchifyChoice.defaultFn

/-- `DataLoader.__init__` (lines 142-174).  `Except.error` carries the
`ValueError` message raised at construction; iteration is only defined on
the `LoaderState` a successful construction returns. -/
def dataLoaderInit (cfg : Config) : Except String LoaderState :=
  match cfg.batch_sampler with
  | none =>
    match cfg.batch_size with
    | none =>
      Except.error "batch_size must be specified unless batch_sampler is specified"
    | some bsize =>
      match cfg.sampler with
      | none =>
        let smp :=
          if cfg.shuffle then SamplerV.random cfg.datasetLen
          else SamplerV.sequential cfg.datasetLen
        Except.ok
          ⟨BatchSamplerV.constructed smp bsize (cfg.last_batch.getD LastBatch.keep),
           cfg.num_workers, chooseBatchify cfg⟩
      | some sid =>
        if cfg.shuffle then
          Except.error "shuffle must not be specified if sampler is specified"
        else
          Except.ok
            ⟨BatchSamplerV.constructed (SamplerV.external sid) bsize
               (cfg.last_batch.getD LastBatch.keep),
             cfg.num_workers, chooseBatchify cfg⟩
  | some bsid =>
    if cfg.batch_size.isSome || cfg.shuffle || cfg.sampler.isSome ||
        cfg.last_batch.isSome then
      Except.error
        "batch_size, shuffle, sampler and last_batch must not be specified if batch_sampler is specified."
    else
      Except.ok ⟨BatchSamplerV.external bsid, cfg.num_workers, chooseBatchify cfg⟩

/-! ### The external `BatchSampler`'s batching behaviour

The `BatchSampler` class itself lives in `sampler.py`, which is not part
of this repository snapshot; only its construction site (lines 159-160)
and the `last_batch` docstring (lines 130-136) are.  Its batching is
therefore modelled from the spec. -/

/-- Split a list into consecutive chunks of `bsize` (the last chunk may be
shorter); no chunks at all for `bsize = 0`. -/
def chunkList (bsize : Nat) (l : List Nat) : List (List Nat) :=
  if l = [] ∨ bsize = 0 then []
  else l.take bsize :: chunkList bsize (l.drop bsize)
termination_by l.length
decreasing_by
  rename_i h
  rw [not_or] at h
  simp only [List.length_drop]
  have h1 : l.length ≠ 0 := fun h0 => h.1 (List.length_eq_zero.mp h0)
  have h2 : bsize ≠ 0 := h.2
  omega

/-- Modelled from the spec: the batch sequence the external `BatchSampler`
produces over one pass from the sampler's index sequence, per the
`last_batch` docstring (lines 130-136) and spec section 8 — `keep` returns
the trailing partial batch, `discard` drops it, `rollover` withholds it
for the next pass (so within one pass it yields the same batches as
`discard`). -/
def batchSamplerBatches (indices : List Nat) (bsize : Nat) : LastBatch → List (List Nat)
  | LastBatch.keep => chunkList bsize indices
  | LastBatch.discard => (chunkList bsize indices).filter (fun c => c.length == bsize)
  | LastBatch.rollover => (chunkList bsize indices).filter (fun c => c.length == bsize)

/-! ### Module-level name binding and `ConnectionWrapper.send`
(lines 23-30, 46-66) -/

/-- The names bound at module scope: the import statements of lines 23-30
(`import numpy as np`, `import multiprocessing`,
`import multiprocessing.queues`, `from multiprocessing.reduction import
ForkingPickler`, `import pickle`, `from . import sampler as _sampler`,
`from ... import nd, context`) and the module-level definitions. -/
def moduleGlobalNames : List String :=
  ["np", "multiprocessing", "ForkingPickler", "pickle", "_sampler", "nd",
   "context", "__all__", "rebuild_ndarray", "reduce_ndarray",
   "ConnectionWrapper", "SimpleQueue", "default_batchify_fn",
   "default_mp_batchify_fn", "worker_loop", "DataLoader"]

/-- Modelled from the spec: the Python builtins namespace, restricted to
the builtin names this module uses.  `io` is a standard-library module,
available only through an explicit import, never as a builtin. -/
def builtinNames : List String :=
  ["isinstance", "len", "zip", "range", "enumerate", "super", "getattr",
   "tuple", "ValueError", "TypeError", "NameError"]

/-- Python name resolution inside a module-level function body: a global
name resolves iff it is bound at module scope or is a builtin. -/
def resolvesGlobal (name : String) : Bool :=
  moduleGlobalNames.contains name || builtinNames.contains name

/-- Outcome of one `send` call: the exception it raised, if any, and the
payloads it pushed onto the underlying connection. -/
structure SendResult (α : Type) where
  error : Option String
  transmitted : List α
deriving DecidableEq, Repr

/-- `ConnectionWrapper.send` (lines 53-57).  Its first statement is
`buf = io.BytesIO()`, so the name `io` is resolved before anything is
written; if it does not resolve, a `NameError` is raised and nothing is
transmitted.  Only when it resolves does the method pickle `obj` and call
`send_bytes`. -/
def connectionWrapperSend (obj : α) : SendResult α :=
  if resolvesGlobal "io" then ⟨none, [obj]⟩
  else ⟨some "NameError: name io is not defined", []⟩

/-- Modelled from the spec (section 4.5): the `SimpleQueue` channels wrap
their connections in `ConnectionWrapper` (lines 73-77), so a `put` of a
Job or Result is serialized through the wrapper's `send`. -/
def simpleQueuePut (obj : α) : SendResult α :=
  connectionWrapperSend obj

/-! ## Theorems -/

theorem drainReady_of_lookup_none {buf : Buffer β} {curr : Nat}
    (h : lookupTicket curr buf = none) :
    drainReady buf curr = ([], buf, curr) := by
  conv_lhs => rw [drainReady.eq_def]
  split <;> simp_all

theorem drainReady_of_lookup_some {buf : Buffer β} {curr : Nat} {b : β}
    (h : lookupTicket curr buf = some b) :
    drainReady buf curr =
      (b :: (drainReady (eraseTicket curr buf) (curr + 1)).1,
       (drainReady (eraseTicket curr buf) (curr + 1)).2.1,
       (drainReady (eraseTicket curr buf) (curr + 1)).2.2) := by
  conv_lhs => rw [drainReady.eq_def]
  split <;> simp_all

/-! ### Buffer lemmas -/

theorem lookupTicket_eq_none_iff (k : Nat) (buf : Buffer β) :
    lookupTicket k buf = none ↔ k ∉ buf.map Prod.fst := by
  induction buf with
  | nil => simp [lookupTicket]
  | cons p rest ih =>
    obtain ⟨k', v'⟩ := p
    simp only [lookupTicket, List.map_cons, List.mem_cons]
    by_cases hk : k' = k
    · rw [if_pos hk]
      simp [hk]
    · rw [if_neg hk, ih]
      constructor
      · intro h1 h2
        rcases h2 with h2 | h2
        · exact hk h2.symm
        · exact h1 h2
      · intro h1 h2
        exact h1 (Or.inr h2)

theorem lookupTicket_eraseTicket_ne {t k : Nat} (h : t ≠ k) (buf : Buffer β) :
    lookupTicket t (eraseTicket k buf) = lookupTicket t buf := by
  induction buf with
  | nil => rfl
  | cons p rest ih =>
    obtain ⟨k', v'⟩ := p
    simp only [eraseTicket]
    by_cases hk : k' = k
    · rw [if_pos hk]
      simp only [lookupTicket]
      rw [if_neg (fun hh : k' = t => h (hh.symm.trans hk))]
    · rw [if_neg hk]
      simp only [lookupTicket]
      by_cases ht : k' = t
      · rw [if_pos ht, if_pos ht]
      · rw [if_neg ht, if_neg ht]
        exact ih

theorem lookupTicket_eraseTicket_self (k : Nat) (buf : Buffer β)
    (h : (buf.map Prod.fst).Nodup) :
    lookupTicket k (eraseTicket k buf) = none := by
  induction buf with
  | nil => rfl
  | cons p rest ih =>
    obtain ⟨k', v'⟩ := p
    simp only [List.map_cons, List.nodup_cons] at h
    simp only [eraseTicket]
    by_cases hk : k' = k
    · rw [if_pos hk]
      rw [lookupTicket_eq_none_iff]
      exact fun hm => h.1 (hk ▸ hm)
    · rw [if_neg hk]
      simp only [lookupTicket]
      rw [if_neg hk]
      exact ih h.2

theorem eraseTicket_sublist (k : Nat) (buf : Buffer β) :
    (eraseTicket k buf).Sublist buf := by
  induction buf with
  | nil => simp [eraseTicket]
  | cons p rest ih =>
    obtain ⟨k', v'⟩ := p
    simp only [eraseTicket]
    by_cases hk : k' = k
    · rw [if_pos hk]
      exact List.sublist_cons_self _ _
    · rw [if_neg hk]
      exact ih.cons₂ _

theorem nodup_eraseTicket (k : Nat) (buf : Buffer β)
    (h : (buf.map Prod.fst).Nodup) :
    ((eraseTicket k buf).map Prod.fst).Nodup :=
  (((eraseTicket_sublist k buf).map Prod.fst).nodup h)

theorem lookupTicket_insertTicket_self (k : Nat) (v : β) (buf : Buffer β) :
    lookupTicket k (insertTicket k v buf) = some v := by
  simp [insertTicket, lookupTicket]

theorem lookupTicket_insertTicket_ne {t k : Nat} (h : t ≠ k) (v : β) (buf : Buffer β) :
    lookupTicket t (insertTicket k v buf) = lookupTicket t buf := by
  simp only [insertTicket, lookupTicket]
  rw [if_neg (fun hh : k = t => h hh.symm), lookupTicket_eraseTicket_ne h]

theorem nodup_insertTicket (k : Nat) (v : β) (buf : Buffer β)
    (h : (buf.map Prod.fst).Nodup) :
    ((insertTicket k v buf).map Prod.fst).Nodup := by
  simp only [insertTicket, List.map_cons, List.nodup_cons]
  refine ⟨?_, nodup_eraseTicket k buf h⟩
  rw [← lookupTicket_eq_none_iff]
  exact lookupTicket_eraseTicket_self k buf h

/-! ### The drain loop's invariant

With tickets drawn from an arrived set `S`, batches consistent with a
batch function `f`, and the buffer holding exactly the arrived tickets at
or past `curr_idx`, the drain loop emits `f` on the contiguous run of
arrived tickets starting at `curr_idx` and stops at the first gap. -/

theorem drainReady_spec (f : Nat → β) (S : Nat → Prop) :
    ∀ (n : Nat) (buf : Buffer β) (curr : Nat), buf.length ≤ n →
    (buf.map Prod.fst).Nodup →
    (∀ t b, lookupTicket t buf = some b → b = f t) →
    (∀ t, (lookupTicket t buf).isSome ↔ S t ∧ curr ≤ t) →
    (∀ t, t < curr → S t) →
    ((List.range curr).map f ++ (drainReady buf curr).1 =
        (List.range (drainReady buf curr).2.2).map f) ∧
    curr ≤ (drainReady buf curr).2.2 ∧
    ¬ S (drainReady buf curr).2.2 ∧
    (∀ t, t < (drainReady buf curr).2.2 → S t) ∧
    ((drainReady buf curr).2.1.map Prod.fst).Nodup ∧
    (∀ t b, lookupTicket t (drainReady buf curr).2.1 = some b → b = f t) ∧
    (∀ t, (lookupTicket t (drainReady buf curr).2.1).isSome ↔
        S t ∧ (drainReady buf curr).2.2 ≤ t) := by
  intro n
  induction n with
  | zero =>
    intro buf curr hlen hnd hcons hmem hbelow
    have hbuf : buf = [] := List.length_eq_zero.mp (Nat.le_zero.mp hlen)
    subst hbuf
    rw [@drainReady_of_lookup_none β [] curr rfl]
    refine ⟨by simp, le_rfl, ?_, hbelow, by simp, ?_, ?_⟩
    · intro hS
      have := (hmem curr).mpr ⟨hS, le_rfl⟩
      simp [lookupTicket] at this
    · intro t b h'
      simp [lookupTicket] at h'
    · exact hmem
  | succ n ih =>
    intro buf curr hlen hnd hcons hmem hbelow
    cases hl : lookupTicket curr buf with
    | none =>
      rw [drainReady_of_lookup_none hl]
      refine ⟨by simp, le_rfl, ?_, hbelow, hnd, hcons, hmem⟩
      intro hS
      have := (hmem curr).mpr ⟨hS, le_rfl⟩
      rw [hl] at this
      simp at this
    | some b =>
      have hb : b = f curr := hcons curr b hl
      rw [drainReady_of_lookup_some hl]
      dsimp only
      have hlen1 : (eraseTicket curr buf).length ≤ n := by
        have := eraseTicket_length_lt curr buf b hl
        omega
      have hnd1 := nodup_eraseTicket curr buf hnd
      have hcons1 : ∀ t b', lookupTicket t (eraseTicket curr buf) = some b' → b' = f t := by
        intro t b' h'
        by_cases ht : t = curr
        · rw [ht, lookupTicket_eraseTicket_self curr buf hnd] at h'
          cases h'
        · rw [lookupTicket_eraseTicket_ne ht] at h'
          exact hcons t b' h'
      have hmem1 : ∀ t, (lookupTicket t (eraseTicket curr buf)).isSome ↔
          S t ∧ curr + 1 ≤ t := by
        intro t
        by_cases ht : t = curr
        · rw [ht, lookupTicket_eraseTicket_self curr buf hnd]
          simp only [Option.isSome_none, Bool.false_eq_true, false_iff]
          rintro ⟨-, hc⟩
          omega
        · rw [lookupTicket_eraseTicket_ne ht, hmem t]
          constructor
          · rintro ⟨hs, hle⟩
            exact ⟨hs, by omega⟩
          · rintro ⟨hs, hle⟩
            exact ⟨hs, by omega⟩
      have hbelow1 : ∀ t, t < curr + 1 → S t := by
        intro t ht
        rcases Nat.lt_or_ge t curr with h' | h'
        · exact hbelow t h'
        · have ht' : t = curr := by omega
          subst ht'
          have := (hmem t).mp (by rw [hl]; rfl)
          exact this.1
      obtain ⟨hemit, hle, hnotS, hbel, hnd2, hcons2, hmem2⟩ :=
        ih (eraseTicket curr buf) (curr + 1) hlen1 hnd1 hcons1 hmem1 hbelow1
      refine ⟨?_, by omega, hnotS, hbel, hnd2, hcons2, hmem2⟩
      show (List.range curr).map f ++
          (b :: (drainReady (eraseTicket curr buf) (curr + 1)).1) = _
      rw [hb]
      calc (List.range curr).map f ++
            f curr :: (drainReady (eraseTicket curr buf) (curr + 1)).1
          = ((List.range curr).map f ++ [f curr]) ++
              (drainReady (eraseTicket curr buf) (curr + 1)).1 := by
            simp
        _ = (List.range (curr + 1)).map f ++
              (drainReady (eraseTicket curr buf) (curr + 1)).1 := by
            rw [List.range_succ, List.map_append]
            rfl
        _ = (List.range (drainReady (eraseTicket curr buf) (curr + 1)).2.2).map f :=
            hemit

/-- Unfolding of the collection loop on a cons. -/
theorem collectLoop_cons (a : Nat × β) (rest : List (Nat × β)) (buf : Buffer β)
    (curr : Nat) :
    collectLoop (a :: rest) buf curr =
      (drainReady (insertTicket a.1 a.2 buf) curr).1 ++
        collectLoop rest (drainReady (insertTicket a.1 a.2 buf) curr).2.1
          (drainReady (insertTicket a.1 a.2 buf) curr).2.2 := rfl

/-- The collection loop's invariant: starting from a state consistent with
the set `S` of already-arrived tickets, feeding in the remaining arrivals
(fresh tickets, batches given by `f`) extends the emitted prefix to
`f 0, …, f (c'-1)` for some `c'` that lies just past a contiguous run of
arrived tickets. -/
theorem collectLoop_spec (f : Nat → β) :
    ∀ (rest : List (Nat × β)) (S : Nat → Prop) (buf : Buffer β) (curr : Nat),
    (buf.map Prod.fst).Nodup →
    (∀ t b, lookupTicket t buf = some b → b = f t) →
    (∀ t, (lookupTicket t buf).isSome ↔ S t ∧ curr ≤ t) →
    (∀ t, t < curr → S t) →
    ¬ S curr →
    (rest.map Prod.fst).Nodup →
    (∀ p ∈ rest, p.2 = f p.1 ∧ ¬ S p.1) →
    ∃ c', (List.range curr).map f ++ collectLoop rest buf curr =
        (List.range c').map f ∧
      ¬ (S c' ∨ c' ∈ rest.map Prod.fst) ∧
      (∀ t, t < c' → S t ∨ t ∈ rest.map Prod.fst) := by
  intro rest
  induction rest with
  | nil =>
    intro S buf curr hnd hcons hmem hbelow hncurr hndr hrest
    refine ⟨curr, by simp [collectLoop], ?_, ?_⟩
    · simp only [List.map_nil, List.not_mem_nil, or_false]
      exact hncurr
    · intro t ht
      exact Or.inl (hbelow t ht)
  | cons a rest' ih =>
    intro S buf curr hnd hcons hmem hbelow hncurr hndr hrest
    obtain ⟨hfa, hnSa⟩ := hrest a (List.mem_cons_self a rest')
    simp only [List.map_cons, List.nodup_cons] at hndr
    have hacurr : curr ≤ a.1 := by
      by_contra hlt
      exact hnSa (hbelow a.1 (by omega))
    -- state after the dict insert, relative to S ∪ {a.1}
    have hnd1 := nodup_insertTicket a.1 a.2 buf hnd
    have hcons1 : ∀ t b, lookupTicket t (insertTicket a.1 a.2 buf) = some b →
        b = f t := by
      intro t b h'
      by_cases ht : t = a.1
      · rw [ht, lookupTicket_insertTicket_self] at h'
        cases h'
        exact ht ▸ hfa
      · rw [lookupTicket_insertTicket_ne ht] at h'
        exact hcons t b h'
    have hmem1 : ∀ t, (lookupTicket t (insertTicket a.1 a.2 buf)).isSome ↔
        (S t ∨ t = a.1) ∧ curr ≤ t := by
      intro t
      by_cases ht : t = a.1
      · rw [ht, lookupTicket_insertTicket_self]
        simp only [Option.isSome_some, true_iff]
        exact ⟨Or.inr (by trivial), hacurr⟩
      · rw [lookupTicket_insertTicket_ne ht, hmem t]
        constructor
        · rintro ⟨hs, hle⟩
          exact ⟨Or.inl hs, hle⟩
        · rintro ⟨hs | hs, hle⟩
          · exact ⟨hs, hle⟩
          · exact absurd hs ht
    have hbelow1 : ∀ t, t < curr → S t ∨ t = a.1 := fun t ht => Or.inl (hbelow t ht)
    obtain ⟨hemit, hle, hnotS1, hbel1, hnd2, hcons2, hmem2⟩ :=
      drainReady_spec f (fun t => S t ∨ t = a.1)
        (insertTicket a.1 a.2 buf).length (insertTicket a.1 a.2 buf) curr le_rfl
        hnd1 hcons1 hmem1 hbelow1
    obtain ⟨c'', hemit', hnot', hbel'⟩ :=
      ih (fun t => S t ∨ t = a.1)
        (drainReady (insertTicket a.1 a.2 buf) curr).2.1
        (drainReady (insertTicket a.1 a.2 buf) curr).2.2
        hnd2 hcons2 hmem2 hbel1 hnotS1 hndr.2
        (by
          intro p hp
          obtain ⟨hf', hnS'⟩ := hrest p (List.mem_cons_of_mem a hp)
          refine ⟨hf', ?_⟩
          rintro (hs | hs)
          · exact hnS' hs
          · exact hndr.1 (hs ▸ List.mem_map_of_mem Prod.fst hp))
    refine ⟨c'', ?_, ?_, ?_⟩
    · rw [collectLoop_cons, ← List.append_assoc, hemit, hemit']
    · simp only [List.map_cons, List.mem_cons]
      rintro (hs | hs)
      · exact hnot' (Or.inl (Or.inl hs))
      · rcases hs with hs | hs
        · exact hnot' (Or.inl (Or.inr hs))
        · exact hnot' (Or.inr hs)
    · intro t ht
      rcases hbel' t ht with (hs | hs) | hs
      · exact Or.inl hs
      · exact Or.inr (by rw [List.map_cons]; exact List.mem_cons.mpr (Or.inl hs))
      · exact Or.inr (by rw [List.map_cons]; exact List.mem_cons.mpr (Or.inr hs))

/-! ### From the enumerated job stream to the yielded sequence -/

theorem pyEnumerate_map_fst :
    ∀ (l : List α) (k : Nat),
      (pyEnumerate k l).map Prod.fst = List.range' k l.length := by
  intro l
  induction l with
  | nil => intro k; rfl
  | cons a as ih =>
    intro k
    simp only [pyEnumerate, List.map_cons, List.length_cons, List.range'_succ]
    rw [ih]

theorem pyEnumerate_length : ∀ (l : List α) (k : Nat),
    (pyEnumerate k l).length = l.length := by
  intro l
  induction l with
  | nil => intro k; rfl
  | cons a as ih =>
    intro k
    simp only [pyEnumerate, List.length_cons, ih]

theorem mem_pyEnumerate : ∀ (l : List α) (k : Nat) (p : Nat × α),
    p ∈ pyEnumerate k l → k ≤ p.1 ∧ l[p.1 - k]? = some p.2 := by
  intro l
  induction l with
  | nil => intro k p h; simp [pyEnumerate] at h
  | cons a as ih =>
    intro k p h
    rcases List.mem_cons.mp h with rfl | h2
    · simp
    · obtain ⟨hk, hget⟩ := ih (k + 1) p h2
      refine ⟨by omega, ?_⟩
      have hs : p.1 - k = (p.1 - (k + 1)) + 1 := by omega
      rw [hs, List.getElem?_cons_succ]
      exact hget

theorem range_map_getD (g : List Nat → γ) :
    ∀ (bs : List (List Nat)),
      (List.range bs.length).map (fun t => g (bs.getD t [])) = bs.map g := by
  intro bs
  induction bs with
  | nil => simp
  | cons b rest ih =>
    rw [List.length_cons, List.range_succ_eq_map, List.map_cons, List.map_map,
      List.map_cons, ← ih]
    congr 1

/-- With every ticket `0, …, n-1` arriving exactly once (in any order) and
the batch of ticket `t` being `f t`, the collection loop started on an
empty buffer emits exactly `f 0, …, f (n-1)` in ticket order. -/
theorem collectLoop_total (f : Nat → β) (n : Nat) (arrivals : List (Nat × β))
    (hperm : (arrivals.map Prod.fst).Perm (List.range n))
    (hconsist : ∀ p ∈ arrivals, p.2 = f p.1) :
    collectLoop arrivals [] 0 = (List.range n).map f := by
  have hnd : (arrivals.map Prod.fst).Nodup := hperm.nodup_iff.mpr (List.nodup_range n)
  obtain ⟨c', hemit, hnot, hbel⟩ :=
    collectLoop_spec f arrivals (fun _ => False) [] 0
      (by simp) (by intro t b h'; simp [lookupTicket] at h')
      (by intro t; simp [lookupTicket]) (by intro t ht; omega)
      (fun h => h) hnd
      (by intro p hp; exact ⟨hconsist p hp, fun h => h⟩)
  have h1 : ¬ c' < n := fun hc =>
    hnot (Or.inr (hperm.mem_iff.mpr (List.mem_range.mpr hc)))
  have h2 : ∀ t, t < c' → t < n := fun t ht =>
    List.mem_range.mp (hperm.mem_iff.mp ((hbel t ht).resolve_left (fun h => h)))
  have hcn : c' = n := by
    rcases Nat.lt_trichotomy c' n with h | h | h
    · exact absurd h h1
    · exact h
    · have := h2 n h
      omega
  rw [hcn] at hemit
  simpa using hemit

/-- The parallel pass yields the same sequence as the synchronous pass,
for any arrival order of the worker results: the ticket of each result is
its job's position, and the reorder buffer restores position order. -/
theorem parallelPassYields_eq (fetch : Nat → α) (bfn : List α → β)
    (bs : List (List Nat)) (arrivals : List (Nat × β))
    (h : arrivals.Perm ((pyEnumerate 0 bs).map (processJob fetch bfn))) :
    parallelPassYields bs arrivals = syncPass fetch bfn bs := by
  have hlen : arrivals.length = bs.length := by
    rw [h.length_eq, List.length_map, pyEnumerate_length]
  have hfst : (arrivals.map Prod.fst).Perm (List.range bs.length) := by
    have h1 := h.map Prod.fst
    rw [List.map_map] at h1
    have h2 : (pyEnumerate 0 bs).map (Prod.fst ∘ processJob fetch bfn) =
        (pyEnumerate 0 bs).map Prod.fst :=
      List.map_congr_left (fun p _ => rfl)
    rw [h2, pyEnumerate_map_fst, ← List.range_eq_range'] at h1
    exact h1
  have hcons : ∀ p ∈ arrivals, p.2 = bfn ((bs.getD p.1 []).map fetch) := by
    intro p hp
    have hp2 := h.mem_iff.mp hp
    obtain ⟨q, hq, rfl⟩ := List.mem_map.mp hp2
    obtain ⟨-, hget⟩ := mem_pyEnumerate bs 0 q hq
    rw [Nat.sub_zero] at hget
    show bfn (q.2.map fetch) = bfn ((bs.getD q.1 []).map fetch)
    have hgd : bs.getD q.1 [] = q.2 := by
      rw [List.getD_eq_getElem?_getD, hget]
      rfl
    rw [hgd]
  have htake : arrivals.take bs.length = arrivals := by
    rw [← hlen]
    exact List.take_length arrivals
  show collectLoop (arrivals.take bs.length) [] 0 = _
  rw [htake,
    collectLoop_total (fun t => bfn ((bs.getD t []).map fetch)) bs.length arrivals
      hfst hcons]
  exact range_map_getD (fun batch => bfn (batch.map fetch)) bs

/-- C1: in every parallel-mode pass, the batches are yielded in strictly
increasing ticket order `0, 1, 2, …` matching the sampler order — i.e. the
yielded sequence equals the synchronous pass over the same sampler —
regardless of the order in which the `(ticket, batch)` results arrive on
the result channel: each arrival is inserted into the pending buffer, and
the buffer then emits every entry equal to `curr_idx`, incrementing it. -/
theorem dataLoader_parallel_yields_in_ticket_order (fetch : Nat → α)
    (bfn : List α → β) (bs : List (List Nat)) (arrivals : List (Nat × β))
    (h : arrivals.Perm ((pyEnumerate 0 bs).map (processJob fetch bfn))) :
    parallelPassYields bs arrivals = syncPass fetch bfn bs :=
  parallelPassYields_eq fetch bfn bs arrivals h

/-- Witness for C1 at a concrete out-of-order arrival sequence. -/
theorem dataLoader_parallel_yields_in_ticket_order_witness :
    ([((2 : Nat), [11, 12]), (0, [10]), (1, [])] : List (Nat × List Nat)).Perm
        ((pyEnumerate 0 [[0], [], [1, 2]]).map
          (processJob (fun i => 10 + i) (fun l => l))) ∧
      parallelPassYields [[0], [], [1, 2]] [(2, [11, 12]), (0, [10]), (1, [])] =
        syncPass (fun i => 10 + i) (fun l => l) [[0], [], [1, 2]] :=
  ⟨by decide,
   dataLoader_parallel_yields_in_ticket_order (fun i => 10 + i) (fun l => l)
     [[0], [], [1, 2]] [(2, [11, 12]), (0, [10]), (1, [])] (by decide)⟩

/-- C2: `len()` equals the batch sampler's batch count, and one full pass
yields exactly that many batches, in synchronous mode and — for any order
in which the worker results arrive — in parallel mode.  The batch sampler
is universally quantified, so this holds for every `last_batch` policy. -/
theorem dataLoader_len_eq_batches_yielded (fetch : Nat → α) (bfn : List α → β)
    (bs : List (List Nat)) :
    dataLoader_len bs = bs.length ∧
    (syncPass fetch bfn bs).length = dataLoader_len bs ∧
    ∀ arrivals : List (Nat × β),
      arrivals.Perm ((pyEnumerate 0 bs).map (processJob fetch bfn)) →
      (parallelPassYields bs arrivals).length = dataLoader_len bs := by
  refine ⟨rfl, by simp [syncPass, dataLoader_len], ?_⟩
  intro arrivals h
  rw [parallelPassYields_eq fetch bfn bs arrivals h]
  simp [syncPass, dataLoader_len]

/-- Witness for C2 at a concrete two-batch pass with reversed arrivals. -/
theorem dataLoader_len_eq_batches_yielded_witness :
    ([((1 : Nat), [11]), (0, [10])] : List (Nat × List Nat)).Perm
        ((pyEnumerate 0 [[0], [1]]).map
          (processJob (fun i => 10 + i) (fun l => l))) ∧
      (parallelPassYields [[0], [1]] [(1, [11]), (0, [10])]).length =
        dataLoader_len [[0], [1]] :=
  ⟨by decide,
   (dataLoader_len_eq_batches_yielded (fun i => 10 + i) (fun l => l)
       [[0], [1]]).2.2 [(1, [11]), (0, [10])] (by decide)⟩

/-- C5: the worker loop exits on a sentinel with no further channel I/O —
the messages after the sentinel are arbitrary and unread — and for every
job `(ticket, indices)` before the sentinel it fetches `dataset[i]` for
each index in index order, applies the collate function to the ordered
sample list, and publishes the batch under the job's own ticket, looping
to the next message. -/
theorem worker_loop_processes_jobs_until_sentinel (fetch : Nat → α)
    (bfn : List α → β) (pre : List (Nat × List Nat)) (post : List KeyMsg) :
    worker_loop fetch bfn
        ((pre.map (fun p => KeyMsg.job p.1 p.2)) ++ KeyMsg.sentinel :: post) =
      some (pre.map (processJob fetch bfn)) := by
  induction pre with
  | nil => rfl
  | cons p rest ih =>
    simp only [List.map_cons, List.cons_append, worker_loop, List.append_eq, ih,
      Option.map_some']

/-! ### Trace facts for the parallel pass -/

theorem filterMap_jobOf_yields (l : List β) :
    (l.map (PassOp.yieldB (β := β))).filterMap jobOf = [] := by
  induction l with
  | nil => rfl
  | cons b rest ih => simp [jobOf, ih]

theorem collectOps_filterMap_jobOf :
    ∀ (as : List (Nat × β)) (buf : Buffer β) (curr : Nat),
      (collectOps as buf curr).filterMap jobOf = [] := by
  intro as
  induction as with
  | nil => intro buf curr; rfl
  | cons a rest ih =>
    intro buf curr
    simp [collectOps, jobOf, List.filterMap_append, filterMap_jobOf_yields, ih]

theorem filterMap_jobOf_jobs (ps : List (Nat × List Nat)) :
    ((ps.map (fun p => PassOp.putKey (β := β) (KeyMsg.job p.1 p.2))).filterMap
        jobOf) = ps := by
  induction ps with
  | nil => rfl
  | cons p rest ih => simp [jobOf, ih]

theorem filterMap_jobOf_replicate (k : Nat) (op : PassOp β) (h : jobOf op = none) :
    (List.replicate k op).filterMap jobOf = [] := by
  induction k with
  | zero => rfl
  | succ k ih => simp [List.replicate_succ, List.filterMap_cons, h, ih]

theorem countP_getResult_yields (l : List β) :
    (l.map (PassOp.yieldB (β := β))).countP (fun op => isGetResult op) = 0 := by
  induction l with
  | nil => rfl
  | cons b rest ih => simp [List.countP_cons, isGetResult, ih]

theorem collectOps_countP_getResult :
    ∀ (as : List (Nat × β)) (buf : Buffer β) (curr : Nat),
      (collectOps as buf curr).countP (fun op => isGetResult op) = as.length := by
  intro as
  induction as with
  | nil => intro buf curr; rfl
  | cons a rest ih =>
    intro buf curr
    rw [show collectOps (a :: rest) buf curr =
        PassOp.getResult a ::
          ((drainReady (insertTicket a.1 a.2 buf) curr).1.map PassOp.yieldB ++
            collectOps rest (drainReady (insertTicket a.1 a.2 buf) curr).2.1
              (drainReady (insertTicket a.1 a.2 buf) curr).2.2) from rfl]
    rw [List.countP_cons, List.countP_append, countP_getResult_yields, ih]
    simp [isGetResult]

theorem countP_getResult_jobs (ps : List (Nat × List Nat)) :
    ((ps.map (fun p => PassOp.putKey (β := β) (KeyMsg.job p.1 p.2))).countP
        (fun op => isGetResult op)) = 0 := by
  induction ps with
  | nil => rfl
  | cons p rest ih => simp [List.countP_cons, isGetResult, ih]

theorem countP_getResult_replicate (k : Nat) (op : PassOp β)
    (h : isGetResult op = false) :
    (List.replicate k op).countP (fun op => isGetResult op) = 0 := by
  induction k with
  | zero => rfl
  | succ k ih => simp [List.replicate_succ, List.countP_cons, h, ih]

theorem collectOps_no_sentinel :
    ∀ (as : List (Nat × β)) (buf : Buffer β) (curr : Nat) (op : PassOp β),
      op ∈ collectOps as buf curr → isPutSentinel op = false := by
  intro as
  induction as with
  | nil => intro buf curr op h; simp [collectOps] at h
  | cons a rest ih =>
    intro buf curr op h
    simp only [collectOps, List.mem_cons, List.mem_append] at h
    rcases h with rfl | (h | h)
    · rfl
    · obtain ⟨b, -, rfl⟩ := List.mem_map.mp h
      rfl
    · exact ih _ _ op h

theorem worker_loop_isSome_of_sentinel (fetch : Nat → α) (bfn : List α → β) :
    ∀ (stream : List KeyMsg), KeyMsg.sentinel ∈ stream →
      (worker_loop fetch bfn stream).isSome = true := by
  intro stream
  induction stream with
  | nil => intro h; simp at h
  | cons m rest ih =>
    intro h
    cases m with
    | sentinel => rfl
    | job t ids =>
      have hrest : KeyMsg.sentinel ∈ rest := by
        rcases List.mem_cons.mp h with h' | h'
        · cases h'
        · exact h'
      simp only [worker_loop, Option.isSome_map']
      exact ih hrest

/-- C4: in parallel mode the dispatcher enqueues every index batch of the
sampler as a job ticketed by its position `0, 1, 2, …` in order, onto a
job channel bounded at 65535; it drains exactly `len(batch_sampler)`
results from the result channel (bounded at 65535); only after the drain
does it push exactly one sentinel per worker and join every worker; and a
worker that receives a sentinel terminates, so no worker outlives a
completed pass. -/
theorem dataLoader_parallel_dispatch_protocol (fetch : Nat → α)
    (bfn : List α → β) (numWorkers : Nat) (bs : List (List Nat))
    (arrivals : List (Nat × β)) (h : bs.length ≤ arrivals.length) :
    C4Statement fetch bfn numWorkers bs arrivals := by
  have hjobs : (iterParallel numWorkers bs arrivals).filterMap jobOf =
      pyEnumerate 0 bs := by
    simp only [iterParallel, List.filterMap_append]
    rw [filterMap_jobOf_replicate numWorkers PassOp.spawn rfl,
      filterMap_jobOf_jobs, collectOps_filterMap_jobOf,
      filterMap_jobOf_replicate numWorkers (PassOp.putKey KeyMsg.sentinel) rfl,
      filterMap_jobOf_replicate numWorkers PassOp.joinWorker rfl]
    simp
  refine ⟨hjobs, ?_, rfl, rfl, ?_, ?_, worker_loop_isSome_of_sentinel fetch bfn⟩
  · rw [hjobs, pyEnumerate_map_fst, List.range_eq_range']
  · simp only [iterParallel, List.countP_append]
    rw [countP_getResult_replicate numWorkers PassOp.spawn rfl,
      countP_getResult_jobs, collectOps_countP_getResult,
      countP_getResult_replicate numWorkers (PassOp.putKey KeyMsg.sentinel) rfl,
      countP_getResult_replicate numWorkers PassOp.joinWorker rfl,
      List.length_take]
    simp only [dataLoader_len]
    omega
  · refine ⟨List.replicate numWorkers PassOp.spawn ++
      (pyEnumerate 0 bs).map (fun p => PassOp.putKey (KeyMsg.job p.1 p.2)) ++
      collectOps (arrivals.take bs.length) [] 0, ?_, ?_⟩
    · simp [iterParallel, List.append_assoc]
    · intro op hop
      simp only [List.mem_append] at hop
      rcases hop with (hop | hop) | hop
      · rw [List.eq_of_mem_replicate hop]
        rfl
      · obtain ⟨p, -, rfl⟩ := List.mem_map.mp hop
        rfl
      · exact collectOps_no_sentinel _ _ _ op hop

/-- Witness for C4 at a concrete two-worker, two-batch pass. -/
theorem dataLoader_parallel_dispatch_protocol_witness :
    ([[0], [1]] : List (List Nat)).length ≤
        ([((1 : Nat), [11]), (0, [10])] : List (Nat × List Nat)).length ∧
      C4Statement (fun i => 10 + i) (fun l => l) 2 [[0], [1]]
        [(1, [11]), (0, [10])] :=
  ⟨by decide,
   dataLoader_parallel_dispatch_protocol (fun i => 10 + i) (fun l => l) 2
     [[0], [1]] [(1, [11]), (0, [10])] (by decide)⟩

/-! ### Structure of the collate functions -/

theorem default_batchify_fn_tup (fs rest : List Sample) :
    default_batchify_fn (Sample.tup fs :: rest) =
      (match transposeTuples (Sample.tup fs :: rest) with
       | none => none
       | some fls => (collateEach fls).map Batch.list) := by
  rw [default_batchify_fn]
  split <;> rename_i h' <;> rw [h']

theorem default_mp_batchify_fn_tup (fs rest : List Sample) :
    default_mp_batchify_fn (Sample.tup fs :: rest) =
      (match transposeTuples (Sample.tup fs :: rest) with
       | none => none
       | some fls => (collateEachMp fls).map Batch.list) := by
  rw [default_mp_batchify_fn]
  split <;> rename_i h' <;> rw [h']

theorem mapOpt_length (g : α → Option γ) :
    ∀ (l : List α) (out : List γ), mapOpt g l = some out → out.length = l.length := by
  intro l
  induction l with
  | nil =>
    intro out h
    simp only [mapOpt, Option.some.injEq] at h
    subst h
    rfl
  | cons a as ih =>
    intro out h
    rcases hga : g a with _ | ga <;> rcases hmas : mapOpt g as with _ | mas <;>
      simp only [mapOpt, hga, hmas] at h
    · exact absurd h (by simp)
    · exact absurd h (by simp)
    · exact absurd h (by simp)
    · injection h with h'
      subst h'
      simp only [List.length_cons, ih mas hmas]

theorem sampleShapeL_length : ∀ (l : List Sample), (sampleShapeL l).length = l.length := by
  intro l
  induction l with
  | nil => rfl
  | cons s rest ih => simp only [sampleShapeL, List.length_cons, ih]

theorem sampleShapeL_getD (d : Sample) :
    ∀ (r : List Sample) (σs : List SShape), sampleShapeL r = σs →
      ∀ (i : Nat) (h : i < σs.length), sampleShape (r.getD i d) = σs.get ⟨i, h⟩ := by
  intro r
  induction r with
  | nil =>
    intro σs h i hi
    subst h
    rw [show sampleShapeL [] = [] from rfl] at hi
    simp at hi
  | cons s rest ih =>
    intro σs h i hi
    subst h
    cases i with
    | zero => rfl
    | succ n =>
      simp only [List.getD_cons_succ]
      exact ih (sampleShapeL rest) rfl n (by simpa [sampleShapeL] using hi)

theorem depthL_le_depthLL :
    ∀ (fls : List (List Sample)) (fl : List Sample), fl ∈ fls →
      depthL fl ≤ depthLL fls := by
  intro fls
  induction fls with
  | nil => intro fl h; simp at h
  | cons g rest ih =>
    intro fl h
    rcases List.mem_cons.mp h with rfl | h2
    · simp [depthLL]
    · exact le_trans (ih fl h2) (by simp [depthLL])

theorem minArity_uniform (m : Nat) :
    ∀ (rows : List (List α)), rows ≠ [] → (∀ r ∈ rows, r.length = m) →
      minArity rows = m := by
  intro rows
  induction rows with
  | nil => intro h; cases h rfl
  | cons r rest ih =>
    intro _ h
    cases rest with
    | nil => exact h r (List.mem_cons_self r [])
    | cons r2 rest2 =>
      rw [show minArity (r :: r2 :: rest2) = min r.length (minArity (r2 :: rest2))
          from rfl,
        h r (List.mem_cons_self _ _),
        ih (List.cons_ne_nil r2 rest2) (fun x hx => h x (List.mem_cons_of_mem r hx)),
        min_self]

theorem mapOpt_tupleFields_of_tup (σs : List SShape) :
    ∀ (data : List Sample), (∀ s ∈ data, sampleShape s = SShape.tup σs) →
      ∃ rows, mapOpt tupleFields data = some rows ∧ rows.length = data.length ∧
        ∀ r ∈ rows, sampleShapeL r = σs := by
  intro data
  induction data with
  | nil => exact fun _ => ⟨[], rfl, rfl, by simp⟩
  | cons s rest ih =>
    intro h
    have hs := h s (List.mem_cons_self s rest)
    cases s with
    | arr a => simp [sampleShape] at hs
    | scalar v => simp [sampleShape] at hs
    | tup fs =>
      have hfs : sampleShapeL fs = σs := by
        simpa [sampleShape] using hs
      obtain ⟨rows, hm, hlen, hsh⟩ := ih (fun x hx => h x (List.mem_cons_of_mem _ hx))
      refine ⟨fs :: rows, ?_, by simp [hlen], ?_⟩
      · simp [mapOpt, tupleFields, hm]
      · intro r hr
        rcases List.mem_cons.mp hr with rfl | hr
        · exact hfs
        · exact hsh r hr

/-- Transposing a non-empty uniform list of tuples succeeds and produces
one field list per field, each of the same length as the input and
uniformly shaped. -/
theorem transposeTuples_uniform (σs : List SShape) (data : List Sample)
    (hne : data ≠ []) (hσ : ∀ s ∈ data, sampleShape s = SShape.tup σs) :
    ∃ fls, transposeTuples data = some fls ∧
      List.Forall₂ (fun fl σ' => fl.length = data.length ∧
        ∀ x ∈ fl, sampleShape x = σ') fls σs := by
  obtain ⟨rows, hm, hlen, hsh⟩ := mapOpt_tupleFields_of_tup σs data hσ
  have hrne : rows ≠ [] := by
    intro h0
    rw [h0] at hlen
    exact hne (List.length_eq_zero.mp hlen.symm)
  have hrlen : ∀ r ∈ rows, r.length = σs.length := by
    intro r hr
    rw [← sampleShapeL_length r, hsh r hr]
  have hmin : minArity rows = σs.length := minArity_uniform σs.length rows hrne hrlen
  refine ⟨pyZip (Sample.tup []) rows, by rw [transposeTuples, hm]; rfl, ?_⟩
  apply List.forall₂_of_length_eq_of_get
  · simp [pyZip, hmin]
  · intro i h₁ h₂
    have hi : i < σs.length := h₂
    have hget : (pyZip (Sample.tup []) rows).get ⟨i, h₁⟩ =
        rows.map (fun r => r.getD i (Sample.tup [])) := by
      simp [pyZip]
    rw [hget]
    constructor
    · simp [List.length_map, hlen]
    · intro x hx
      obtain ⟨r, hr, rfl⟩ := List.mem_map.mp hx
      exact sampleShapeL_getD (Sample.tup []) r σs (hsh r hr) i hi

theorem mapOpt_asNd_of_tensor (sh : List Nat) :
    ∀ (data : List Sample), (∀ s ∈ data, sampleShape s = SShape.tensor sh) →
      ∃ arrs, mapOpt asNd data = some arrs ∧ arrs.length = data.length ∧
        ∀ x ∈ arrs, x.shape = sh := by
  intro data
  induction data with
  | nil => exact fun _ => ⟨[], rfl, rfl, by simp⟩
  | cons s rest ih =>
    intro h
    have hs := h s (List.mem_cons_self s rest)
    cases s with
    | tup fs => simp [sampleShape] at hs
    | scalar v => simp [sampleShape] at hs
    | arr a =>
      obtain ⟨arrs, hm, hlen, hsh⟩ := ih (fun x hx => h x (List.mem_cons_of_mem _ hx))
      refine ⟨a :: arrs, ?_, by simp [hlen], ?_⟩
      · simp [mapOpt, asNd, hm]
      · intro x hx
        rcases List.mem_cons.mp hx with rfl | hx
        · simpa [sampleShape] using hs
        · exact hsh x hx

theorem mapOpt_asScalar_of_scalar :
    ∀ (data : List Sample), (∀ s ∈ data, sampleShape s = SShape.scalar) →
      ∃ vs, mapOpt asScalar data = some vs ∧ vs.length = data.length := by
  intro data
  induction data with
  | nil => exact fun _ => ⟨[], rfl, rfl⟩
  | cons s rest ih =>
    intro h
    have hs := h s (List.mem_cons_self s rest)
    cases s with
    | tup fs => simp [sampleShape] at hs
    | arr a => simp [sampleShape] at hs
    | scalar v =>
      obtain ⟨vs, hm, hlen⟩ := ih (fun x hx => h x (List.mem_cons_of_mem _ hx))
      exact ⟨v :: vs, by simp [mapOpt, asScalar, hm], by simp [hlen]⟩

theorem ndStack_uniform (a : NDArray) (rest : List NDArray) (sh : List Nat)
    (ha : a.shape = sh) (hrest : ∀ x ∈ rest, x.shape = sh) :
    ndStack (a :: rest) =
      some ⟨(a :: rest).length :: sh, ((a :: rest).map NDArray.data).flatten,
        Ctx.cpu⟩ := by
  simp only [ndStack]
  rw [if_pos (fun x hx => (hrest x hx).trans ha.symm), ha]

theorem batchify_tensor_case (sh : List Nat) (data : List Sample)
    (hne : data ≠ []) (hσ : ∀ s ∈ data, sampleShape s = SShape.tensor sh) :
    ∃ b, default_batchify_fn data = some b ∧
      batchShape b = BShape.arr (data.length :: sh) := by
  obtain ⟨s, rest, rfl⟩ := List.exists_cons_of_ne_nil hne
  have hs := hσ s (List.mem_cons_self s rest)
  cases s with
  | tup fs => simp [sampleShape] at hs
  | scalar v => simp [sampleShape] at hs
  | arr a =>
    obtain ⟨arrs, hm, hlen, hall⟩ := mapOpt_asNd_of_tensor sh _ hσ
    rw [default_batchify_fn, hm, Option.some_bind]
    cases arrs with
    | nil => simp at hlen
    | cons a0 arrs' =>
      rw [ndStack_uniform a0 arrs' sh (hall a0 (List.mem_cons_self _ _))
          (fun x hx => hall x (List.mem_cons_of_mem _ hx)),
        Option.map_some']
      refine ⟨_, rfl, ?_⟩
      rw [show batchShape (Batch.arr ⟨(a0 :: arrs').length :: sh,
          ((a0 :: arrs').map NDArray.data).flatten, Ctx.cpu⟩) =
          BShape.arr ((a0 :: arrs').length :: sh) from rfl, hlen]

theorem batchify_scalar_case (data : List Sample) (hne : data ≠ [])
    (hσ : ∀ s ∈ data, sampleShape s = SShape.scalar) :
    ∃ b, default_batchify_fn data = some b ∧
      batchShape b = BShape.arr [data.length] := by
  obtain ⟨s, rest, rfl⟩ := List.exists_cons_of_ne_nil hne
  have hs := hσ s (List.mem_cons_self s rest)
  cases s with
  | tup fs => simp [sampleShape] at hs
  | arr a => simp [sampleShape] at hs
  | scalar v =>
    obtain ⟨vs, hm, hlen⟩ := mapOpt_asScalar_of_scalar _ hσ
    rw [default_batchify_fn, hm, Option.map_some']
    refine ⟨_, rfl, ?_⟩
    rw [show batchShape (Batch.arr ⟨[vs.length], vs, Ctx.cpu⟩) =
        BShape.arr [vs.length] from rfl, hlen]

theorem collateEach_spec (n : Nat) :
    ∀ (fls : List (List Sample)) (σs : List SShape),
      List.Forall₂ (fun fl σ' => fl.length = n ∧ ∀ x ∈ fl, sampleShape x = σ')
        fls σs →
      (∀ fl ∈ fls, ∀ (σ' : SShape), fl.length = n → fl ≠ [] →
        (∀ x ∈ fl, sampleShape x = σ') →
        ∃ b, default_batchify_fn fl = some b ∧ batchShape b = stackedShape n σ') →
      n ≠ 0 →
      ∃ bsl, collateEach fls = some bsl ∧ batchShapeL bsl = stackedShapeL n σs := by
  intro fls σs hf
  induction hf with
  | nil => exact fun _ _ => ⟨[], by rw [collateEach], rfl⟩
  | @cons fl σ' fls' σs' hR hrest ihh =>
    intro hIH hn
    have hflne : fl ≠ [] := by
      intro h0
      rw [h0] at hR
      exact hn hR.1.symm
    obtain ⟨b, hb, hsh⟩ :=
      hIH fl (List.mem_cons_self fl fls') σ' hR.1 hflne hR.2
    obtain ⟨bsl, hbsl, hshl⟩ :=
      ihh (fun g hg => hIH g (List.mem_cons_of_mem fl hg)) hn
    refine ⟨b :: bsl, ?_, ?_⟩
    · rw [collateEach, hb, hbsl]
    · rw [show batchShapeL (b :: bsl) = batchShape b :: batchShapeL bsl from rfl,
        show stackedShapeL n (σ' :: σs') =
          stackedShape n σ' :: stackedShapeL n σs' from rfl,
        hsh, hshl]

/-- Structure preservation of `default_batchify_fn`, by strong induction on
the nesting depth of the sample list. -/
theorem batchify_structure_aux :
    ∀ (D : Nat) (data : List Sample) (σ : SShape), depthL data ≤ D →
      data ≠ [] → (∀ s ∈ data, sampleShape s = σ) →
      ∃ b, default_batchify_fn data = some b ∧
        batchShape b = stackedShape data.length σ := by
  intro D
  induction D with
  | zero =>
    intro data σ hd hne hσ
    cases σ with
    | tensor sh => exact batchify_tensor_case sh data hne hσ
    | scalar => exact batchify_scalar_case data hne hσ
    | tup σs =>
      obtain ⟨s, rest, rfl⟩ := List.exists_cons_of_ne_nil hne
      have hs := hσ s (List.mem_cons_self s rest)
      cases s with
      | arr a => simp [sampleShape] at hs
      | scalar v => simp [sampleShape] at hs
      | tup fs =>
        exfalso
        have h1 : depth (Sample.tup fs) ≤ depthL (Sample.tup fs :: rest) :=
          depth_le_depthL _ _ (List.mem_cons_self _ _)
        rw [show depth (Sample.tup fs) = 1 + depthL fs from rfl] at h1
        omega
  | succ D ih =>
    intro data σ hd hne hσ
    cases σ with
    | tensor sh => exact batchify_tensor_case sh data hne hσ
    | scalar => exact batchify_scalar_case data hne hσ
    | tup σs =>
      obtain ⟨s, rest, rfl⟩ := List.exists_cons_of_ne_nil hne
      have hs := hσ s (List.mem_cons_self s rest)
      cases s with
      | arr a => simp [sampleShape] at hs
      | scalar v => simp [sampleShape] at hs
      | tup fs =>
        obtain ⟨fls, htr, hf2⟩ := transposeTuples_uniform σs _ hne hσ
        have hflsdepth : ∀ fl ∈ fls, depthL fl ≤ D := by
          intro fl hfl
          have h1 := depthL_le_depthLL fls fl hfl
          have h2 := transpose_depthLL_lt fs rest fls htr
          omega
        have hf2' : List.Forall₂
            (fun fl σ' => fl.length = (Sample.tup fs :: rest).length ∧
              ∀ x ∈ fl, sampleShape x = σ') fls σs := hf2
        obtain ⟨bsl, hcoll, hshl⟩ :=
          collateEach_spec (Sample.tup fs :: rest).length fls σs hf2'
            (fun fl hfl σ' hlen hne' hsh' => by
              obtain ⟨b, hb, hbs⟩ := ih fl σ' (hflsdepth fl hfl) hne' hsh'
              exact ⟨b, hb, by rw [hbs, hlen]⟩)
            (by simp)
        refine ⟨Batch.list bsl, ?_, ?_⟩
        · rw [default_batchify_fn_tup, htr]
          show (collateEach fls).map Batch.list = some (Batch.list bsl)
          rw [hcoll]
          rfl
        · rw [show batchShape (Batch.list bsl) = BShape.list (batchShapeL bsl)
              from rfl,
            hshl]
          rfl

/-- C3: `default_batchify_fn` is a structure-preserving recursion.  On a
non-empty list of `n` samples of a common shape structure: a tensor leaf
of shape `sh` collates to one tensor of shape `n :: sh` — stacked along a
new leading dimension; a tuple is transposed and each field collated
independently, preserving field order and arity; any other (scalar) leaf
is converted to a tensor (of shape `[n]`).  The batch therefore mirrors
the sample's nesting, as computed by `stackedShape`. -/
theorem default_batchify_fn_structure_preserving (data : List Sample)
    (σ : SShape) (hne : data ≠ []) (hσ : ∀ s ∈ data, sampleShape s = σ) :
    ∃ b, default_batchify_fn data = some b ∧
      batchShape b = stackedShape data.length σ :=
  batchify_structure_aux (depthL data) data σ le_rfl hne hσ

/-- Witness for C3 on two samples, each a pair of a 2-vector and a
scalar. -/
theorem default_batchify_fn_structure_preserving_witness :
    (([Sample.tup [Sample.arr ⟨[2], [1, 2], Ctx.cpu⟩, Sample.scalar 5],
       Sample.tup [Sample.arr ⟨[2], [3, 4], Ctx.cpu⟩, Sample.scalar 6]] :
        List Sample) ≠ []) ∧
      ∃ b,
        default_batchify_fn
            [Sample.tup [Sample.arr ⟨[2], [1, 2], Ctx.cpu⟩, Sample.scalar 5],
             Sample.tup [Sample.arr ⟨[2], [3, 4], Ctx.cpu⟩, Sample.scalar 6]] =
          some b ∧
        batchShape b =
          stackedShape 2 (SShape.tup [SShape.tensor [2], SShape.scalar]) :=
  ⟨by simp,
   default_batchify_fn_structure_preserving
     [Sample.tup [Sample.arr ⟨[2], [1, 2], Ctx.cpu⟩, Sample.scalar 5],
      Sample.tup [Sample.arr ⟨[2], [3, 4], Ctx.cpu⟩, Sample.scalar 6]]
     (SShape.tup [SShape.tensor [2], SShape.scalar]) (by simp)
     (by intro s hs; fin_cases hs <;> rfl)⟩

/-! ### The shared-memory collate path against the direct path -/

theorem mapOpt_cons_inv (g : α → Option γ) (x : α) (xs : List α) (out : List γ)
    (h : mapOpt g (x :: xs) = some out) :
    ∃ b bs, g x = some b ∧ mapOpt g xs = some bs ∧ out = b :: bs := by
  rcases hgx : g x with _ | b <;> rcases hxs : mapOpt g xs with _ | bs <;>
    simp only [mapOpt, hgx, hxs] at h
  · exact absurd h (by simp)
  · exact absurd h (by simp)
  · exact absurd h (by simp)
  · refine ⟨b, bs, rfl, rfl, ?_⟩
    injection h with h'
    exact h'.symm

theorem mp_eq_plain_arr (a : NDArray) (rest : List Sample) :
    (default_mp_batchify_fn (Sample.arr a :: rest)).map eraseCtx =
      (default_batchify_fn (Sample.arr a :: rest)).map eraseCtx := by
  rw [default_batchify_fn, default_mp_batchify_fn]
  cases hm : mapOpt asNd (Sample.arr a :: rest) with
  | none => rfl
  | some arrs =>
    rw [Option.some_bind, Option.some_bind]
    obtain ⟨b, arrs'', hb, hrest, rfl⟩ := mapOpt_cons_inv asNd _ _ _ hm
    have hba : a = b := by simpa [asNd] using hb
    subst hba
    have hlen : arrs''.length = rest.length := mapOpt_length asNd rest arrs'' hrest
    by_cases hc : ∀ x ∈ arrs'', x.shape = a.shape
    · rw [show ndStack (a :: arrs'') =
          some ⟨(a :: arrs'').length :: a.shape,
            ((a :: arrs'').map NDArray.data).flatten, Ctx.cpu⟩ from by
        simp only [ndStack]
        rw [if_pos hc]]
      rw [show ndStackOut (a :: arrs'')
            (ndEmpty ((Sample.arr a :: rest).length :: a.shape) Ctx.cpuShared) =
          some ⟨(Sample.arr a :: rest).length :: a.shape,
            ((a :: arrs'').map NDArray.data).flatten, Ctx.cpuShared⟩ from by
        simp only [ndStackOut, ndEmpty]
        rw [if_pos ⟨hc, by simp [hlen]⟩]]
      simp [eraseCtx, hlen]
    · rw [show ndStack (a :: arrs'') = none from by
          simp only [ndStack]
          rw [if_neg hc],
        show ndStackOut (a :: arrs'')
            (ndEmpty ((Sample.arr a :: rest).length :: a.shape) Ctx.cpuShared) =
          none from by
          simp only [ndStackOut]
          rw [if_neg (fun hand => hc hand.1)]]

theorem mp_eq_plain_scalar (v : Int) (rest : List Sample) :
    (default_mp_batchify_fn (Sample.scalar v :: rest)).map eraseCtx =
      (default_batchify_fn (Sample.scalar v :: rest)).map eraseCtx := by
  rw [default_batchify_fn, default_mp_batchify_fn]
  cases hm : mapOpt asScalar (Sample.scalar v :: rest) with
  | none => rfl
  | some vs => simp [eraseCtx]

theorem collateEachMp_eq_collateEach :
    ∀ (fls : List (List Sample)),
      (∀ fl ∈ fls, (default_mp_batchify_fn fl).map eraseCtx =
        (default_batchify_fn fl).map eraseCtx) →
      (collateEachMp fls).map eraseCtxL = (collateEach fls).map eraseCtxL := by
  intro fls
  induction fls with
  | nil => intro _; rw [collateEach, collateEachMp]
  | cons fl rest ih =>
    intro h
    have hfl := h fl (List.mem_cons_self _ _)
    have hrest := ih (fun g hg => h g (List.mem_cons_of_mem _ hg))
    rw [collateEach, collateEachMp]
    cases hp : default_batchify_fn fl with
    | none =>
      have hmp : default_mp_batchify_fn fl = none := by
        rw [hp] at hfl
        simpa using hfl
      rw [hmp]
    | some b =>
      rw [hp] at hfl
      cases hmp : default_mp_batchify_fn fl with
      | none => rw [hmp] at hfl; simp at hfl
      | some b' =>
        rw [hmp] at hfl
        simp only [Option.map_some', Option.some.injEq] at hfl
        cases hq : collateEach rest with
        | none =>
          have hqmp : collateEachMp rest = none := by
            rw [hq] at hrest
            simpa using hrest
          rw [hqmp]
        | some bsl =>
          rw [hq] at hrest
          cases hqmp : collateEachMp rest with
          | none => rw [hqmp] at hrest; simp at hrest
          | some bsl' =>
            rw [hqmp] at hrest
            simp only [Option.map_some', Option.some.injEq] at hrest
            show some (eraseCtxL (b' :: bsl')) = some (eraseCtxL (b :: bsl))
            rw [show eraseCtxL (b' :: bsl') = eraseCtx b' :: eraseCtxL bsl'
                from rfl,
              show eraseCtxL (b :: bsl) = eraseCtx b :: eraseCtxL bsl from rfl,
              hfl, hrest]

theorem mp_eq_plain_aux :
    ∀ (D : Nat) (data : List Sample), depthL data ≤ D →
      (default_mp_batchify_fn data).map eraseCtx =
        (default_batchify_fn data).map eraseCtx := by
  intro D
  induction D with
  | zero =>
    intro data hd
    cases data with
    | nil => rw [default_batchify_fn, default_mp_batchify_fn]
    | cons s rest =>
      cases s with
      | arr a => exact mp_eq_plain_arr a rest
      | scalar v => exact mp_eq_plain_scalar v rest
      | tup fs =>
        exfalso
        have h1 : depth (Sample.tup fs) ≤ depthL (Sample.tup fs :: rest) :=
          depth_le_depthL _ _ (List.mem_cons_self _ _)
        rw [show depth (Sample.tup fs) = 1 + depthL fs from rfl] at h1
        omega
  | succ D ih =>
    intro data hd
    cases data with
    | nil => rw [default_batchify_fn, default_mp_batchify_fn]
    | cons s rest =>
      cases s with
      | arr a => exact mp_eq_plain_arr a rest
      | scalar v => exact mp_eq_plain_scalar v rest
      | tup fs =>
        rw [default_batchify_fn_tup, default_mp_batchify_fn_tup]
        cases htr : transposeTuples (Sample.tup fs :: rest) with
        | none => rfl
        | some fls =>
          show ((collateEachMp fls).map Batch.list).map eraseCtx =
            ((collateEach fls).map Batch.list).map eraseCtx
          have hin : (collateEachMp fls).map eraseCtxL =
              (collateEach fls).map eraseCtxL := by
            apply collateEachMp_eq_collateEach
            intro fl hfl
            apply ih
            have h1 := depthL_le_depthLL fls fl hfl
            have h2 := transpose_depthLL_lt fs rest fls htr
            omega
          rw [Option.map_map, Option.map_map]
          show (collateEachMp fls).map (eraseCtx ∘ Batch.list) =
            (collateEach fls).map (eraseCtx ∘ Batch.list)
          have hcomp : (eraseCtx ∘ Batch.list) = (Batch.list ∘ eraseCtxL) := rfl
          rw [hcomp, ← Option.map_map, ← Option.map_map, hin]

/-- C7: for every sample list, the batch the shared-memory collate path
(`default_mp_batchify_fn`, parallel mode) produces is identical in
structure, shapes and element values to the batch the direct path
(`default_batchify_fn`, synchronous mode) produces — and the two paths
succeed or fail together; they differ only in the allocation context of
the tensors, which `eraseCtx` forgets. -/
theorem default_mp_batchify_fn_value_identical (data : List Sample) :
    (default_mp_batchify_fn data).map eraseCtx =
      (default_batchify_fn data).map eraseCtx :=
  mp_eq_plain_aux (depthL data) data le_rfl

/-- C10: both default collate functions need a non-empty sample list: on
the empty list the `data[0]` access fails (modelled as `none`), so a
dispatched job whose index list is empty makes the processing worker fail
instead of producing a batch. -/
theorem batchify_empty_input_fails :
    default_batchify_fn [] = none ∧ default_mp_batchify_fn [] = none ∧
    ∀ (fetch : Nat → Sample) (t : Nat),
      processJob fetch default_batchify_fn (t, []) = (t, none) ∧
      processJob fetch default_mp_batchify_fn (t, []) = (t, none) := by
  have h1 : default_batchify_fn [] = none := by rw [default_batchify_fn]
  have h2 : default_mp_batchify_fn [] = none := by rw [default_mp_batchify_fn]
  refine ⟨h1, h2, fun fetch t => ⟨?_, ?_⟩⟩
  · show (t, default_batchify_fn (([] : List Nat).map fetch)) = (t, none)
    rw [show ([] : List Nat).map fetch = [] from rfl, h1]
  · show (t, default_mp_batchify_fn (([] : List Nat).map fetch)) = (t, none)
    rw [show ([] : List Nat).map fetch = [] from rfl, h2]

/-- C6: construction raises a `ValueError` — so iteration is never
reached — exactly when: no batch sampler and no batch size are given;
shuffle is set together with an explicit sampler; or a batch sampler is
given together with any of batch size, shuffle, sampler, or last_batch.
Every other configuration constructs successfully. -/
theorem dataLoaderInit_raises_iff (cfg : Config) :
    (∃ msg, dataLoaderInit cfg = Except.error msg) ↔
      (cfg.batch_sampler = none ∧ cfg.batch_size = none) ∨
      (cfg.shuffle = true ∧ cfg.sampler.isSome = true) ∨
      (cfg.batch_sampler.isSome = true ∧
        (cfg.batch_size.isSome = true ∨ cfg.shuffle = true ∨
          cfg.sampler.isSome = true ∨ cfg.last_batch.isSome = true)) := by
  obtain ⟨dlen, bsz, shf, smp, lb, bsam, bff, nw⟩ := cfg
  cases bsam <;> cases bsz <;> cases shf <;> cases smp <;> cases lb <;>
    simp [dataLoaderInit]

/-- C8: every call of `ConnectionWrapper.send` raises a `NameError` before
transmitting anything, because its first statement `buf = io.BytesIO()`
refers to the name `io`, which the module never imports and which is not a
builtin; hence no Job or Result put on the `SimpleQueue` channels is ever
sent successfully. -/
theorem connectionWrapperSend_always_nameError (obj : α) :
    connectionWrapperSend obj =
      ⟨some "NameError: name io is not defined", []⟩ ∧
    simpleQueuePut obj =
      ⟨some "NameError: name io is not defined", []⟩ ∧
    resolvesGlobal "io" = false := by
  have h : resolvesGlobal "io" = false := by decide
  refine ⟨?_, ?_, h⟩ <;> simp [connectionWrapperSend, simpleQueuePut, h]

/-! ### The `keep` policy returns the trailing partial batch -/

theorem chunkList_join_aux (bsize : Nat) (hb : bsize ≠ 0) :
    ∀ (n : Nat) (l : List Nat), l.length ≤ n →
      (chunkList bsize l).flatten = l := by
  intro n
  induction n with
  | zero =>
    intro l hl
    obtain rfl : l = [] := List.length_eq_zero.mp (Nat.le_zero.mp hl)
    rw [chunkList]
    simp
  | succ n ih =>
    intro l hl
    by_cases h0 : l = []
    · subst h0
      rw [chunkList]
      simp
    · rw [chunkList, if_neg (not_or.mpr ⟨h0, hb⟩), List.flatten_cons,
        ih (l.drop bsize) (by simp only [List.length_drop]; omega)]
      exact List.take_append_drop bsize l

theorem chunkList_partial (bsize : Nat) (hb : 0 < bsize) :
    ∀ (n : Nat) (l : List Nat), l.length ≤ n → l ≠ [] → ¬ bsize ∣ l.length →
      ∃ full tail, chunkList bsize l = full ++ [tail] ∧ tail ≠ [] ∧
        tail.length < bsize ∧
        (chunkList bsize l).filter (fun c => c.length == bsize) = full := by
  intro n
  induction n with
  | zero =>
    intro l h0 hne _
    exact absurd (List.length_eq_zero.mp (Nat.le_zero.mp h0)) hne
  | succ n ih =>
    intro l hlen hne hdvd
    rw [chunkList, if_neg (not_or.mpr ⟨hne, by omega⟩)]
    by_cases hle : l.length ≤ bsize
    · have hlt : l.length < bsize := by
        rcases Nat.lt_or_ge l.length bsize with h | h
        · exact h
        · exfalso
          have heq : l.length = bsize := Nat.le_antisymm hle h
          exact hdvd ⟨1, by omega⟩
      have hdrop : l.drop bsize = [] := by
        rw [List.drop_eq_nil_iff]
        omega
      have htake : l.take bsize = l := List.take_of_length_le hle
      rw [hdrop, show chunkList bsize [] = [] from by rw [chunkList]; simp,
        htake]
      refine ⟨[], l, rfl, hne, hlt, ?_⟩
      have hne' : (l.length == bsize) = false := by
        simp only [beq_eq_false_iff_ne]
        omega
      rw [List.filter_cons, if_neg (by rw [hne']; exact Bool.false_ne_true)]
      rfl
    · push_neg at hle
      have hdne : l.drop bsize ≠ [] := by
        intro h0
        have h1 := congrArg List.length h0
        simp only [List.length_drop, List.length_nil] at h1
        omega
      have hdvd' : ¬ bsize ∣ (l.drop bsize).length := by
        simp only [List.length_drop]
        rintro ⟨k, hk⟩
        refine hdvd ⟨k + 1, ?_⟩
        have h2 : bsize * (k + 1) = bsize * k + bsize := by ring
        omega
      obtain ⟨full, tail, hchunk, htne, htlt, hfil⟩ :=
        ih (l.drop bsize) (by simp only [List.length_drop]; omega) hdne hdvd'
      rw [hchunk] at hfil
      rw [hchunk]
      refine ⟨l.take bsize :: full, tail, rfl, htne, htlt, ?_⟩
      have htl : (l.take bsize).length = bsize := by
        simp only [List.length_take]
        omega
      have htb : ((l.take bsize).length == bsize) = true := by
        simp [htl]
      rw [List.filter_cons, if_pos htb, hfil]

/-- C9: when no batch sampler is passed and `last_batch` is omitted, a
successful construction builds its `BatchSampler` with the `keep` policy
(line 160), and under `keep` a dataset whose length `batch_size` does not
divide yields all full batches followed by one non-empty partial batch —
returned, where `discard`/`rollover` would withhold it within the pass —
with no index lost. -/
theorem dataLoaderInit_defaults_to_keep (cfg : Config) (st : LoaderState)
    (hok : dataLoaderInit cfg = Except.ok st) (hbs : cfg.batch_sampler = none)
    (hlb : cfg.last_batch = none) :
    ∃ smp bsize, cfg.batch_size = some bsize ∧
      st.batch_sampler = BatchSamplerV.constructed smp bsize LastBatch.keep ∧
      ∀ indices : List Nat, 0 < bsize → ¬ bsize ∣ indices.length →
        (batchSamplerBatches indices bsize LastBatch.keep).flatten = indices ∧
        ∃ full tail,
          batchSamplerBatches indices bsize LastBatch.keep = full ++ [tail] ∧
          tail ≠ [] ∧ tail.length < bsize ∧
          batchSamplerBatches indices bsize LastBatch.discard = full ∧
          batchSamplerBatches indices bsize LastBatch.rollover = full := by
  have hsem : ∀ (bsize : Nat), ∀ indices : List Nat, 0 < bsize →
      ¬ bsize ∣ indices.length →
      (batchSamplerBatches indices bsize LastBatch.keep).flatten = indices ∧
      ∃ full tail,
        batchSamplerBatches indices bsize LastBatch.keep = full ++ [tail] ∧
        tail ≠ [] ∧ tail.length < bsize ∧
        batchSamplerBatches indices bsize LastBatch.discard = full ∧
        batchSamplerBatches indices bsize LastBatch.rollover = full := by
    intro bsize indices hpos hdvd
    have hne : indices ≠ [] := by
      intro h0
      exact hdvd (by rw [h0]; exact Dvd.intro 0 rfl)
    obtain ⟨full, tail, hchunk, htne, htlt, hfil⟩ :=
      chunkList_partial bsize hpos indices.length indices le_rfl hne hdvd
    refine ⟨chunkList_join_aux bsize (by omega) indices.length indices le_rfl,
      full, tail, hchunk, htne, htlt, hfil, hfil⟩
  obtain ⟨dlen, bsz, shf, smp0, lb, bsam, bff, nw⟩ := cfg
  simp only at hbs hlb
  subst hbs
  subst hlb
  cases bsz with
  | none => simp [dataLoaderInit] at hok
  | some bsize =>
    cases smp0 with
    | none =>
      simp only [dataLoaderInit, Except.ok.injEq] at hok
      refine ⟨if shf then SamplerV.random dlen else SamplerV.sequential dlen,
        bsize, rfl, ?_, hsem bsize⟩
      rw [← hok]
      rfl
    | some sid =>
      by_cases hshf : shf
      · simp [dataLoaderInit, hshf] at hok
      · simp only [dataLoaderInit, hshf, Bool.false_eq_true, if_false,
          Except.ok.injEq] at hok
        refine ⟨SamplerV.external sid, bsize, rfl, ?_, hsem bsize⟩
        rw [← hok]
        rfl

/-- Witness for C9: batch size 3, dataset length 10, no sampler options. -/
theorem dataLoaderInit_defaults_to_keep_witness :
    dataLoaderInit ⟨10, some 3, false, none, none, none, none, 0⟩ =
        Except.ok ⟨BatchSamplerV.constructed (SamplerV.sequential 10) 3
          LastBatch.keep, 0, BatchifyChoice.defaultFn⟩ ∧
      ∃ smp bsize,
        (⟨10, some 3, false, none, none, none, none, 0⟩ : Config).batch_size =
          some bsize ∧
        (⟨BatchSamplerV.constructed (SamplerV.sequential 10) 3 LastBatch.keep,
            0, BatchifyChoice.defaultFn⟩ : LoaderState).batch_sampler =
          BatchSamplerV.constructed smp bsize LastBatch.keep ∧
        ∀ indices : List Nat, 0 < bsize → ¬ bsize ∣ indices.length →
          (batchSamplerBatches indices bsize LastBatch.keep).flatten = indices ∧
          ∃ full tail,
            batchSamplerBatches indices bsize LastBatch.keep = full ++ [tail] ∧
            tail ≠ [] ∧ tail.length < bsize ∧
            batchSamplerBatches indices bsize LastBatch.discard = full ∧
            batchSamplerBatches indices bsize LastBatch.rollover = full :=
  ⟨rfl, dataLoaderInit_defaults_to_keep
    ⟨10, some 3, false, none, none, none, none, 0⟩
    ⟨BatchSamplerV.constructed (SamplerV.sequential 10) 3 LastBatch.keep, 0,
      BatchifyChoice.defaultFn⟩ rfl rfl rfl⟩
